import Mathlib

/-!
Verification of the project decomposition and batch-scheduling pipeline.

This file gives a shallow embedding of the pipeline implemented in
`src/agents/software_unit_extractor.py`, `src/agents/work_package_planner.py`,
`src/agents/unit_workpackage_matcher.py`, `src/agents/coverage_auditor.py`,
`src/agents/concurrency_orchestrator.py` and
`src/workflow/development_workflow.py`, and proves the testable properties
stated in the specification about it.

Modelling conventions:
* Python dicts (with insertion order) are modelled as association lists;
  `dict[k] = v` keeps the position of an existing key and replaces its value.
* Python sets are modelled as duplicate-free lists in first-insertion order;
  only membership and cardinality of these sets are observable in the source,
  except for `list(locked & resources)` whose iteration order is unspecified
  in Python — we fix first-occurrence order there (no claim depends on it).
* Python `sorted`/`list.sort` are stable; they are modelled by a Bool-valued
  insertion sort `insertionSortB r` with `r a b = (key a ≤ key b)`
  (resp. `key b ≤ key a` for `reverse=True`), which computes exactly the
  stable ascending (resp. descending) reordering.
* Python string comparison is lexicographic on code points, modelled by
  `charListLe` on `String.data` via `Char.toNat`.
* `coverage_percentage` is a Python float; it is modelled as an exact `ℚ`.
  The only observations made of it (equality of runs, `= 0.0`, `< 100`)
  agree with float arithmetic on all realistically sized inputs.
* The wall-clock timestamp used for the remedial package id `WP-FIX-{HHMMSS}`
  is threaded as an explicit `String` parameter of the workflow.
-/

namespace CodingFlow

/-- Lexicographic `≤` on code-point lists, Python's string comparison. -/
def charListLe : List Char → List Char → Bool
  | [], _ => true
  | _ :: _, [] => false
  | a :: as, b :: bs =>
    if a.toNat < b.toNat then true
    else if b.toNat < a.toNat then false
    else charListLe as bs

/-- Python `a <= b` on strings. -/
def strLe (a b : String) : Bool := charListLe a.data b.data

/-- `listIsPref p l` iff `p` is a literal prefix of `l`. -/
def listIsPref : List Char → List Char → Bool
  | [], _ => true
  | _ :: _, [] => false
  | a :: as, b :: bs => a == b && listIsPref as bs

/-- Python `s.startswith(pre)`. -/
def strStartsWith (s pre : String) : Bool := listIsPref pre.data s.data

/-- `listContainsSeg needle hay` iff `needle` occurs contiguously in `hay`. -/
def listContainsSeg (needle : List Char) : List Char → Bool
  | [] => needle.isEmpty
  | c :: rest => listIsPref needle (c :: rest) || listContainsSeg needle rest

/-- Python `sub in s` on strings. -/
def strContainsSeg (s sub : String) : Bool := listContainsSeg sub.data s.data

/-- Python `s.lower()` (ASCII-accurate; the keyword lists below are ASCII or
Chinese, on which `Char.toLower` and Python agree). -/
def lowerStr (s : String) : String := ⟨s.data.map Char.toLower⟩

/-- Python truthy-or: `a or d` where a missing/empty string falls back. -/
def pyOr (a : Option String) (d : String) : String :=
  match a with
  | some s => if s.isEmpty then d else s
  | none => d

/-- Stable ordered insert on a Bool relation (`r a b` = "a may precede b"). -/
def orderedInsertB (r : α → α → Bool) (a : α) : List α → List α
  | [] => [a]
  | b :: l => if r a b then a :: b :: l else b :: orderedInsertB r a l

/-- Stable insertion sort; with `r a b = (key a ≤ key b)` this is Python's
stable `sorted(key=...)`. -/
def insertionSortB (r : α → α → Bool) : List α → List α
  | [] => []
  | a :: l => orderedInsertB r a (insertionSortB r l)

/-- Duplicate-free image of a list, keeping first occurrences (a Python set
materialized in insertion order). -/
def dedupAux [DecidableEq α] (seen : List α) : List α → List α
  | [] => []
  | a :: as => if a ∈ seen then dedupAux seen as else a :: dedupAux (seen ++ [a]) as

/-- `dedupList l` is `l` with later duplicates removed. -/
def dedupList [DecidableEq α] (l : List α) : List α := dedupAux [] l

/-- Association-list update with Python-dict semantics: an existing key keeps
its position and gets the new value, a new key is appended. -/
def dictUpsert (k : String) (v : α) : List (String × α) → List (String × α)
  | [] => [(k, v)]
  | (k', v') :: rest => if k' = k then (k, v) :: rest else (k', v') :: dictUpsert k v rest

/-- Association-list lookup (`dict.get`). -/
def dictFind : List (String × α) → String → Option α
  | [], _ => none
  | (k', v) :: rest, k => if k' = k then some v else dictFind rest k

/-- Python `dict.setdefault(k, []).append(v)`: append `v` to the bucket of
`k`, creating the bucket at the end if absent. -/
def bucketAdd (k : String) (v : α) : List (String × List α) → List (String × List α)
  | [] => [(k, [v])]
  | (k', vs) :: rest => if k' = k then (k', vs ++ [v]) :: rest else (k', vs) :: bucketAdd k v rest

/-- Numbering a list from `start` (the manual counters of the Python loops). -/
def numbered (start : Nat) : List α → List (Nat × α)
  | [] => []
  | a :: as => (start, a) :: numbered (start + 1) as

/-- Structural worker for `chunks`: the fuel only makes the recursion
structural and never runs out when it starts at `l.length`. -/
def chunksFuel (n : Nat) : Nat → List α → List (List α)
  | 0, _ => []
  | _, [] => []
  | fuel + 1, a :: as => (a :: as.take (n - 1)) :: chunksFuel n fuel (as.drop (n - 1))

/-- `chunks n l`: contiguous chunks of `l` of size `n`
(Python `l[i:i+n] for i in range(0, len(l), n)`); for the degenerate `n = 0`,
where Python raises `ValueError`, this total model produces singleton chunks —
all claims about chunking assume `1 ≤ n`. -/
def chunks (n : Nat) (l : List α) : List (List α) := chunksFuel n l.length l

/-- SoftwareUnit, the dict built by `SoftwareUnitExtractorAgent.extract`. -/
structure SoftwareUnit where
  id : String
  type : String
  name : String
  context : String
  dependencies : List String
  risk_level : String
deriving Repr, DecidableEq

/-- WorkPackage, the dict built by `WorkPackagePlannerAgent.plan` (and the
remedial package of the workflow). -/
structure WorkPackage where
  id : String
  name : String
  objective : String
  acceptance_criteria : List String
  software_unit_ids : List String
  subtask_ids : List String
  assignees : List String
  status : String
  priority : String
  parallelizable : Bool
  tags : List String
deriving Repr, DecidableEq

/-- A `system_components` entry: either a dict with optional fields or a bare
item; `text` stands for Python's `str(comp)` rendering used as last fallback
(for a bare non-dict item all optional fields are `none` and `text` is its
string form, which reproduces the source's `else` branch exactly). -/
structure CompItem where
  name : Option String
  component : Option String
  context : Option String
  service : Option String
  description : Option String
  text : String
deriving Repr, DecidableEq

/-- A `tables` entry (same conventions as `CompItem`). -/
structure TableItem where
  name : Option String
  description : Option String
  text : String
deriving Repr, DecidableEq

/-- An `api_endpoints` entry: a dict (`record`, with `text = str(ep)`), or a
bare non-dict item (`raw`), which the source names directly without a method
prefix. -/
inductive ApiItem where
  | record (path url method description : Option String) (text : String)
  | raw (s : String)
deriving Repr, DecidableEq

/-- The `architecture_analysis` input, flattened: `system_components` from
`system_architecture`, `tables`/`database_type` from `database_design`,
`api_endpoints`/`api_style` from `api_architecture` (each `.get` with default
modelled by `Option`). -/
structure ArchitectureAnalysis where
  system_components : List CompItem
  database_type : Option String
  tables : List TableItem
  api_style : Option String
  api_endpoints : List ApiItem
deriving Repr, DecidableEq

/-- `SoftwareUnitExtractorAgent._infer_risk`. -/
def inferRisk (text : String) : String :=
  let t := lowerStr text
  if ["payment", "security", "认证", "授权", "加密"].any (fun k => strContainsSeg t k) then "high"
  else if ["order", "数据库", "迁移", "索引"].any (fun k => strContainsSeg t k) then "medium"
  else "low"

/-- The component branch of `SoftwareUnitExtractorAgent.extract`. -/
def compUnit (c : CompItem) : SoftwareUnit :=
  let name := pyOr c.name (pyOr c.component c.text)
  let context := pyOr c.context (pyOr c.service "system")
  let description := pyOr c.description ""
  { id := "COMP::" ++ name
    type := "component"
    name := name
    context := context
    dependencies := []
    risk_level := inferRisk (if description.isEmpty then name else description) }

/-- The table branch of `SoftwareUnitExtractorAgent.extract`. -/
def tableUnit (dbType : Option String) (tb : TableItem) : SoftwareUnit :=
  let name := pyOr tb.name tb.text
  let description := pyOr tb.description ""
  { id := "DB::" ++ name
    type := "db"
    name := name
    context := dbType.getD "database"
    dependencies := []
    risk_level := inferRisk (if description.isEmpty then name else description) }

/-- The endpoint branch of `SoftwareUnitExtractorAgent.extract`. -/
def apiUnit (style : Option String) : ApiItem → SoftwareUnit
  | .record path url method description text =>
    let p := pyOr path (pyOr url text)
    let m := pyOr method "GET"
    let name := m ++ " " ++ p
    let d := pyOr description ""
    { id := "API::" ++ name
      type := "api"
      name := name
      context := style.getD "api"
      dependencies := []
      risk_level := inferRisk (if d.isEmpty then name else d) }
  | .raw s =>
    { id := "API::" ++ s
      type := "api"
      name := s
      context := style.getD "api"
      dependencies := []
      risk_level := inferRisk s }

/-- The dedup key `f"{type}::{name}::{context}"` of
`SoftwareUnitExtractorAgent._dedupe`. -/
def dedupeKey (u : SoftwareUnit) : String := u.type ++ "::" ++ u.name ++ "::" ++ u.context

/-- `SoftwareUnitExtractorAgent._dedupe` with its `seen` set. -/
def dedupeUnitsAux (seen : List String) : List SoftwareUnit → List SoftwareUnit
  | [] => []
  | u :: us =>
    if dedupeKey u ∈ seen then dedupeUnitsAux seen us
    else u :: dedupeUnitsAux (seen ++ [dedupeKey u]) us

/-- `SoftwareUnitExtractorAgent._dedupe`. -/
def dedupeUnits (units : List SoftwareUnit) : List SoftwareUnit := dedupeUnitsAux [] units

/-- `SoftwareUnitExtractorAgent.extract`. -/
def extract (arch : ArchitectureAnalysis) : List SoftwareUnit :=
  dedupeUnits
    (arch.system_components.map compUnit
      ++ arch.tables.map (tableUnit arch.database_type)
      ++ arch.api_endpoints.map (apiUnit arch.api_style))

/-- Python `f"WP-{n:03d}"`'s zero-padded counter. -/
def pad3 (n : Nat) : String :=
  if n < 10 then "00" ++ toString n
  else if n < 100 then "0" ++ toString n
  else toString n

/-- The bucket key `f"{context}/{type}"` shared by the planner and the
matcher's coherence check. -/
def unitKey (u : SoftwareUnit) : String := u.context ++ "/" ++ u.type

/-- `key=lambda x: x.get("risk_level"), reverse=True`: stable descending
lexical order on `risk_level`. -/
def riskGeB (a b : SoftwareUnit) : Bool := strLe b.risk_level a.risk_level

/-- The `context/type` buckets of `WorkPackagePlannerAgent.plan`, in dict
insertion order. -/
def buckets (units : List SoftwareUnit) : List (String × List SoftwareUnit) :=
  units.foldl (fun m u => bucketAdd (unitKey u) u m) []

/-- One package of `WorkPackagePlannerAgent.plan`: global counter `n`,
bucket key `key`, 1-based chunk index `j`, chunk contents `chunk`. -/
def mkPackage (n : Nat) (key : String) (j : Nat) (chunk : List SoftwareUnit) : WorkPackage :=
  { id := "WP-" ++ pad3 n
    name := key ++ "#" ++ toString j
    objective := "实现 " ++ key ++ " 下 " ++ toString chunk.length ++ " 个单元"
    acceptance_criteria := ["功能达成", "测试通过", "无阻断风险"]
    software_unit_ids := chunk.map (·.id)
    subtask_ids := []
    assignees := []
    status := "planned"
    priority := "medium"
    parallelizable := true
    tags := chunk.map (·.type) }

/-- `WorkPackagePlannerAgent.plan`: bucket, sort stably descending by
`risk_level`, chunk by `maxU`, number chunks per bucket and packages
globally (the Python chunk label `i // max + 1` equals the 1-based chunk
index for `1 ≤ maxU`). -/
def plan (maxU : Nat) (units : List SoftwareUnit) : List WorkPackage :=
  let tagged := (buckets units).flatMap
    (fun kv => (numbered 1 (chunks maxU (insertionSortB riskGeB kv.2))).map
      (fun jc => (kv.1, jc)))
  (numbered 1 tagged).map (fun nt => mkPackage nt.1 nt.2.1 nt.2.2.1 nt.2.2.2)

/-- `UnitToWorkPackageMatcherAgent._is_coherent`. -/
def isCoherent (p : WorkPackage) (u : SoftwareUnit) : Bool :=
  strStartsWith p.name (unitKey u)

/-- A `wrong_bindings` record. -/
structure WrongBinding where
  package_id : String
  unit_id : String
  reason : String
deriving Repr, DecidableEq

/-- The output of `UnitToWorkPackageMatcherAgent.match`. -/
structure MatchResult where
  work_packages : List WorkPackage
  unbound_units : List String
  wrong_bindings : List WrongBinding
deriving Repr, DecidableEq

/-- The matcher's `unit_index = {u["id"]: u for u in software_units}`
(first-occurrence key order, last-wins values). The source also builds a
`pkg_index` which it never uses; it is omitted. -/
def unitIndex (units : List SoftwareUnit) : List (String × SoftwareUnit) :=
  units.foldl (fun d u => dictUpsert u.id u d) []

/-- The per-binding validity test of the matcher's step 1. -/
def validBinding (idx : List (String × SoftwareUnit)) (p : WorkPackage) (uid : String) : Bool :=
  match dictFind idx uid with
  | none => false
  | some u => isCoherent p u

/-- Step 1 of `match` on one package: keep only valid bindings. -/
def step1Pkg (idx : List (String × SoftwareUnit)) (p : WorkPackage) : WorkPackage :=
  { p with software_unit_ids := p.software_unit_ids.filter (validBinding idx p) }

/-- Step 1 of `match` on one package: the `wrong_bindings` it records. -/
def step1Wrongs (idx : List (String × SoftwareUnit)) (p : WorkPackage) : List WrongBinding :=
  p.software_unit_ids.filterMap (fun uid =>
    match dictFind idx uid with
    | none => some ⟨p.id, uid, "缺失的单元"⟩
    | some u => if isCoherent p u then none else some ⟨p.id, uid, "上下文/类型不一致"⟩)

/-- State of the matcher's repair loop (step 2). -/
structure RepairState where
  pkgs : List WorkPackage
  unbound : List String
deriving Repr, DecidableEq

/-- Appending a rebound unit id to a package (the in-place
`candidates[0].setdefault("software_unit_ids", []).append(uid)`). -/
def updPkg (p : WorkPackage) (uid : String) : WorkPackage :=
  { p with software_unit_ids := p.software_unit_ids ++ [uid] }

/-- Comparison key of `candidates.sort(key=lambda x: len(x.get("software_unit_ids", [])))`;
candidates are carried as (position, package) pairs so that the in-place
append to the chosen Python object becomes an update at its position. -/
def loadLeIdx (a b : Nat × WorkPackage) : Bool :=
  Nat.ble a.2.software_unit_ids.length b.2.software_unit_ids.length

/-- One iteration of the repair loop over a `unit_index` item `(uid, u)`:
skip ids bound in the `bound_units` snapshot, otherwise append `uid` to the
head of the stably load-sorted coherent candidates, or record it unbound. -/
def repairStep (bound : List String) (st : RepairState) (e : String × SoftwareUnit) :
    RepairState :=
  if e.1 ∈ bound then st
  else
    let cands := (numbered 0 st.pkgs).filter (fun c => isCoherent c.2 e.2)
    match (insertionSortB loadLeIdx cands).head? with
    | some c => { st with pkgs := st.pkgs.set c.1 (updPkg c.2 e.1) }
    | none => { st with unbound := st.unbound ++ [e.1] }

/-- `UnitToWorkPackageMatcherAgent.match`. -/
def matchUnits (units : List SoftwareUnit) (pkgs : List WorkPackage) : MatchResult :=
  let idx := unitIndex units
  let pkgs1 := pkgs.map (step1Pkg idx)
  let wrongs := pkgs.flatMap (step1Wrongs idx)
  let bound := pkgs1.flatMap (·.software_unit_ids)
  let final := idx.foldl (repairStep bound) ⟨pkgs1, []⟩
  ⟨final.pkgs, final.unbound, wrongs⟩

/-- First element minimizing `f`, ties to the earlier element — the
specification's "package with the fewest currently-bound units, ties broken
by first-encountered order". -/
def firstMinBy (f : α → Nat) : List α → Option α
  | [] => none
  | a :: as =>
    match firstMinBy f as with
    | none => some a
    | some m => if f a ≤ f m then some a else some m

/-- Modelled from the spec's wording of the repair step (§4.3 step 2):
identical to `repairStep` except that the candidate is chosen as the first
coherent package with minimal load instead of by sorting. -/
def repairStepSpec (bound : List String) (st : RepairState) (e : String × SoftwareUnit) :
    RepairState :=
  if e.1 ∈ bound then st
  else
    let cands := (numbered 0 st.pkgs).filter (fun c => isCoherent c.2 e.2)
    match firstMinBy (fun c => c.2.software_unit_ids.length) cands with
    | some c => { st with pkgs := st.pkgs.set c.1 (updPkg c.2 e.1) }
    | none => { st with unbound := st.unbound ++ [e.1] }

/-- Modelled from the spec: `UnitToWorkPackageMatcherAgent.match` with the
spec-worded repair step. -/
def matchUnitsSpec (units : List SoftwareUnit) (pkgs : List WorkPackage) : MatchResult :=
  let idx := unitIndex units
  let pkgs1 := pkgs.map (step1Pkg idx)
  let wrongs := pkgs.flatMap (step1Wrongs idx)
  let bound := pkgs1.flatMap (·.software_unit_ids)
  let final := idx.foldl (repairStepSpec bound) ⟨pkgs1, []⟩
  ⟨final.pkgs, final.unbound, wrongs⟩

/-- The CoverageReport of `CoverageAuditorAgent.audit`. -/
structure CoverageReport where
  total_units : Nat
  covered_units : Nat
  coverage_percentage : ℚ
  uncovered_units : List String
  duplicate_coverage : List (String × Nat)
deriving Repr, DecidableEq

/-- `duplicates[uid] = duplicates.get(uid, 1) + 1` on the duplicates dict. -/
def dictBump (k : String) : List (String × Nat) → List (String × Nat)
  | [] => [(k, 2)]
  | (k', n) :: rest => if k' = k then (k', n + 1) :: rest else (k', n) :: dictBump k rest

/-- The auditor's scan over all bound ids, accumulating the `covered` set
(as a first-occurrence list) and the `duplicates` dict. -/
def auditScanStep (st : List String × List (String × Nat)) (uid : String) :
    List String × List (String × Nat) :=
  if uid ∈ st.1 then (st.1, dictBump uid st.2) else (st.1 ++ [uid], st.2)

/-- `CoverageAuditorAgent.audit`. -/
def audit (units : List SoftwareUnit) (pkgs : List WorkPackage) : CoverageReport :=
  let unitIds := dedupList (units.map (·.id))
  let scan := (pkgs.flatMap (·.software_unit_ids)).foldl auditScanStep ([], [])
  let covered := scan.1
  let uncovered := insertionSortB strLe (unitIds.filter (fun i => decide (i ∉ covered)))
  let duplicate_list :=
    insertionSortB (fun a b => strLe a.1 b.1) (scan.2.filter (fun e => decide (1 < e.2)))
  { total_units := unitIds.length
    covered_units := covered.length
    coverage_percentage :=
      if unitIds.isEmpty then 0 else (covered.length : ℚ) / (unitIds.length : ℚ) * 100
    uncovered_units := uncovered
    duplicate_coverage := duplicate_list }

/-- The ConcurrencyPlan of `ConcurrencyOrchestratorAgent.plan_batches`;
`conflicts` entries are appended in processing order (the source's dict). -/
structure ConcurrencyPlan where
  batches : List (List String)
  conflicts : List (String × List String)
deriving Repr, DecidableEq

/-- `ConcurrencyOrchestratorAgent._infer_context`. -/
def inferContext (p : WorkPackage) (units : List SoftwareUnit) : String :=
  match p.software_unit_ids with
  | [] => "default"
  | uid :: _ =>
    match units.find? (fun u => u.id == uid) with
    | some u => u.context
    | none => "default"

/-- The orchestrator's `context_map`, in dict insertion order. -/
def contextGroups (wps : List WorkPackage) (units : List SoftwareUnit) :
    List (String × List WorkPackage) :=
  wps.foldl (fun m p => bucketAdd (inferContext p units) p m) []

/-- `{uid for uid in uids if uid.startswith("DB::")}`, as a first-occurrence
list. -/
def dbRes (p : WorkPackage) : List String :=
  dedupList (p.software_unit_ids.filter (fun uid => strStartsWith uid "DB::"))

/-- `pkgs.sort(key=lambda x: len(x.get("software_unit_ids", [])))`. -/
def loadLe (a b : WorkPackage) : Bool :=
  Nat.ble a.software_unit_ids.length b.software_unit_ids.length

/-- One iteration of the orchestrator's greedy accept loop; the state is
(accepted packages, locked resources, conflicts so far). `batch_ids` of the
source is the id image of the accepted packages. -/
def acceptStep (st : List WorkPackage × List String × List (String × List String))
    (p : WorkPackage) : List WorkPackage × List String × List (String × List String) :=
  let rs := dbRes p
  let inter := st.2.1.filter (fun r => decide (r ∈ rs))
  if inter.isEmpty then
    (st.1 ++ [p], st.2.1 ++ rs.filter (fun r => decide (r ∉ st.2.1)), st.2.2)
  else
    (st.1, st.2.1, st.2.2 ++ [(p.id, inter)])

/-- The accept loop of `plan_batches` over one (already sorted) context
group. -/
def acceptGroup (pkgs : List WorkPackage) :
    List WorkPackage × List String × List (String × List String) :=
  pkgs.foldl acceptStep ([], [], [])

/-- `ConcurrencyOrchestratorAgent.plan_batches`. -/
def planBatches (wps : List WorkPackage) (units : List SoftwareUnit) : ConcurrencyPlan :=
  let results := (contextGroups wps units).map
    (fun g => acceptGroup (insertionSortB loadLe g.2))
  { batches := (results.map (fun r => r.1.map (·.id))).filter (fun b => !b.isEmpty)
    conflicts := results.flatMap (·.2.2) }

/-- The remedial package the workflow's coverage gate synthesizes
(`development_workflow.py` lines 58-70); `t` is the `HHMMSS` timestamp. -/
def remedialPkg (t : String) (uncovered : List String) : WorkPackage :=
  { id := "WP-FIX-" ++ t
    name := "remedial"
    objective := "补充未覆盖单元"
    acceptance_criteria := ["所有单元挂载完成"]
    software_unit_ids := uncovered
    subtask_ids := []
    assignees := []
    status := "planned"
    priority := "high"
    parallelizable := true
    tags := ["remedial"] }

/-- The discriminated result of the decomposition pipeline: the success
components the spec names (units, packages, coverage, concurrency plan), or
the failure message. The downstream plan generator / document exporter and
the result timestamps are pure consumers and are out of scope. -/
inductive PipelineResult where
  | ok (units : List SoftwareUnit) (packages : List WorkPackage)
      (coverage : CoverageReport) (concurrency : ConcurrencyPlan)
  | failed (msg : String)
deriving Repr, DecidableEq

/-- `ProjectDevelopmentWorkflow.execute`, decomposition stages only. The
workflow uses the default planner (`max_units_per_package = 3`); `t` is the
wall-clock `HHMMSS` string used in the remedial package id. -/
def execute (arch : ArchitectureAnalysis) (t : String) : PipelineResult :=
  let units := extract arch
  let packages0 := plan 3 units
  let m := matchUnits units packages0
  let packages1 := m.work_packages
  let cov1 := audit units packages1
  let packages2 :=
    if cov1.uncovered_units.isEmpty then packages1
    else packages1 ++ [remedialPkg t cov1.uncovered_units]
  let cov2 := if cov1.uncovered_units.isEmpty then cov1 else audit units packages2
  if cov2.coverage_percentage < 100 then .failed "覆盖度未达到100%，门禁阻断"
  else .ok units packages2 cov2 (planBatches packages2 units)

/-- Fixture: a single low-risk component unit. -/
def uA : SoftwareUnit :=
  { id := "COMP::A", type := "component", name := "A", context := "system"
    dependencies := [], risk_level := "low" }

/-- Fixture: the package the planner builds for `[uA]`. -/
def wpA : WorkPackage :=
  { id := "WP-001", name := "system/component#1"
    objective := "实现 system/component 下 1 个单元"
    acceptance_criteria := ["功能达成", "测试通过", "无阻断风险"]
    software_unit_ids := ["COMP::A"], subtask_ids := [], assignees := []
    status := "planned", priority := "medium", parallelizable := true
    tags := ["component"] }

/-- Fixture: the coverage report of the `[uA]`/`[wpA]` run. -/
def covA : CoverageReport :=
  { total_units := 1, covered_units := 1, coverage_percentage := 100
    uncovered_units := [], duplicate_coverage := [] }

/-- Fixture: the concurrency plan of the `[uA]`/`[wpA]` run. -/
def cpA : ConcurrencyPlan := { batches := [["WP-001"]], conflicts := [] }

/-- Fixture: an architecture with one component named `A`. -/
def archA : ArchitectureAnalysis :=
  { system_components := [⟨some "A", none, none, none, none, "comp"⟩]
    database_type := none, tables := [], api_style := none, api_endpoints := [] }

/-- Fixture: the empty architecture (zero units). -/
def archEmpty : ArchitectureAnalysis :=
  { system_components := [], database_type := none, tables := []
    api_style := none, api_endpoints := [] }

/-- Fixture: two components with the same name `X` in different contexts
`a` and `b` — distinct dedup triples, identical ids `COMP::X`. -/
def archC2 : ArchitectureAnalysis :=
  { system_components := [⟨some "X", none, some "a", none, none, "c1"⟩,
                          ⟨some "X", none, some "b", none, none, "c2"⟩]
    database_type := none, tables := [], api_style := none, api_endpoints := [] }

/-- Fixture: one package listing the same unit id twice. -/
def pAA : WorkPackage :=
  { id := "WP-001", name := "system/component#1", objective := "o"
    acceptance_criteria := [], software_unit_ids := ["COMP::A", "COMP::A"]
    subtask_ids := [], assignees := [], status := "planned", priority := "medium"
    parallelizable := true, tags := [] }

theorem charListLe_total (as bs : List Char) :
    charListLe as bs = true ∨ charListLe bs as = true := by
  induction as generalizing bs with
  | nil => left; rfl
  | cons a as ih =>
    cases bs with
    | nil => right; rfl
    | cons b bs =>
      simp only [charListLe]
      rcases Nat.lt_trichotomy a.toNat b.toNat with h | h | h
      · left; simp [h]
      · have h1 : ¬ a.toNat < b.toNat := by omega
        have h2 : ¬ b.toNat < a.toNat := by omega
        simp only [h1, h2, if_false]
        exact ih bs
      · right; simp [h]

theorem charListLe_trans {as bs cs : List Char} (h1 : charListLe as bs = true)
    (h2 : charListLe bs cs = true) : charListLe as cs = true := by
  induction as generalizing bs cs with
  | nil => rfl
  | cons a as ih =>
    cases bs with
    | nil => simp [charListLe] at h1
    | cons b bs =>
      cases cs with
      | nil => simp [charListLe] at h2
      | cons c cs =>
        simp only [charListLe] at h1 h2 ⊢
        by_cases hab : a.toNat < b.toNat <;> by_cases hbc : b.toNat < c.toNat <;>
          simp only [hab, hbc, if_true, if_false] at h1 h2
        · simp [show a.toNat < c.toNat by omega]
        · by_cases hcb : c.toNat < b.toNat
          · simp [hcb] at h2
          · have : b.toNat = c.toNat := by omega
            simp [show a.toNat < c.toNat by omega]
        · by_cases hba : b.toNat < a.toNat
          · simp [hba] at h1
          · have : a.toNat = b.toNat := by omega
            simp [show a.toNat < c.toNat by omega]
        · by_cases hba : b.toNat < a.toNat
          · simp [hba] at h1
          · by_cases hcb : c.toNat < b.toNat
            · simp [hcb] at h2
            · have h1' : ¬ a.toNat < c.toNat := by omega
              have h2' : ¬ c.toNat < a.toNat := by omega
              rw [if_neg hba] at h1
              rw [if_neg hcb] at h2
              rw [if_neg h1', if_neg h2']
              exact ih h1 h2

theorem charToNat_inj {a b : Char} (h : a.toNat = b.toNat) : a = b :=
  Char.eq_of_val_eq (UInt32.ext h)

theorem charListLe_antisymm {as bs : List Char} (h1 : charListLe as bs = true)
    (h2 : charListLe bs as = true) : as = bs := by
  induction as generalizing bs with
  | nil =>
    cases bs with
    | nil => rfl
    | cons b bs => simp [charListLe] at h2
  | cons a as ih =>
    cases bs with
    | nil => simp [charListLe] at h1
    | cons b bs =>
      simp only [charListLe] at h1 h2
      by_cases hab : a.toNat < b.toNat
      · simp [hab, show ¬ b.toNat < a.toNat by omega] at h2
      · by_cases hba : b.toNat < a.toNat
        · simp [hab, hba] at h1
        · have hv : a = b := charToNat_inj (by omega)
          simp only [hab, hba, if_false] at h1 h2
          rw [hv, ih h1 h2]

theorem strLe_total (a b : String) : strLe a b = true ∨ strLe b a = true :=
  charListLe_total a.data b.data

theorem strLe_trans {a b c : String} (h1 : strLe a b = true) (h2 : strLe b c = true) :
    strLe a c = true :=
  charListLe_trans h1 h2

theorem mem_orderedInsertB (r : α → α → Bool) (a x : α) (l : List α) :
    x ∈ orderedInsertB r a l ↔ x = a ∨ x ∈ l := by
  induction l with
  | nil => simp [orderedInsertB]
  | cons b l ih =>
    simp only [orderedInsertB]
    by_cases h : r a b = true
    · simp [h]
    · simp only [if_neg h, List.mem_cons, ih]
      tauto

theorem perm_orderedInsertB (r : α → α → Bool) (a : α) (l : List α) :
    (orderedInsertB r a l).Perm (a :: l) := by
  induction l with
  | nil => simp [orderedInsertB]
  | cons b l ih =>
    simp only [orderedInsertB]
    by_cases h : r a b = true
    · simp [h]
    · rw [if_neg h]
      exact ((ih.cons b).trans (List.Perm.swap a b l))

theorem perm_insertionSortB (r : α → α → Bool) (l : List α) :
    (insertionSortB r l).Perm l := by
  induction l with
  | nil => simp [insertionSortB]
  | cons a l ih =>
    exact (perm_orderedInsertB r a (insertionSortB r l)).trans (ih.cons a)

theorem mem_insertionSortB (r : α → α → Bool) (x : α) (l : List α) :
    x ∈ insertionSortB r l ↔ x ∈ l :=
  (perm_insertionSortB r l).mem_iff

theorem length_insertionSortB (r : α → α → Bool) (l : List α) :
    (insertionSortB r l).length = l.length :=
  (perm_insertionSortB r l).length_eq

theorem insertionSortB_nil_iff (r : α → α → Bool) (l : List α) :
    insertionSortB r l = [] ↔ l = [] := by
  constructor
  · intro h
    have := length_insertionSortB r l
    rw [h] at this
    exact List.length_eq_zero.mp this.symm
  · intro h; rw [h]; rfl

theorem pairwise_orderedInsertB (r : α → α → Bool)
    (htot : ∀ a b, r a b = true ∨ r b a = true)
    (htrans : ∀ a b c, r a b = true → r b c = true → r a c = true)
    (a : α) (l : List α) (h : l.Pairwise (fun x y => r x y = true)) :
    (orderedInsertB r a l).Pairwise (fun x y => r x y = true) := by
  induction l with
  | nil => simp [orderedInsertB]
  | cons b l ih =>
    simp only [orderedInsertB]
    rcases List.pairwise_cons.mp h with ⟨hb, hl⟩
    by_cases hab : r a b = true
    · rw [if_pos hab]
      refine List.pairwise_cons.mpr ⟨?_, h⟩
      intro x hx
      rcases List.mem_cons.mp hx with hx | hx
      · rw [hx]; exact hab
      · exact htrans a b x hab (hb x hx)
    · rw [if_neg hab]
      refine List.pairwise_cons.mpr ⟨?_, ih hl⟩
      intro x hx
      rcases (mem_orderedInsertB r a x l).mp hx with hx | hx
      · rw [hx]
        rcases htot a b with h' | h'
        · exact absurd h' hab
        · exact h'
      · exact hb x hx

theorem pairwise_insertionSortB (r : α → α → Bool)
    (htot : ∀ a b, r a b = true ∨ r b a = true)
    (htrans : ∀ a b c, r a b = true → r b c = true → r a c = true)
    (l : List α) :
    (insertionSortB r l).Pairwise (fun x y => r x y = true) := by
  induction l with
  | nil => simp [insertionSortB]
  | cons a l ih => exact pairwise_orderedInsertB r htot htrans a _ ih

theorem head_insertionSortB_ble (f : α → Nat) (l : List α) :
    (insertionSortB (fun a b => Nat.ble (f a) (f b)) l).head? = firstMinBy f l := by
  induction l with
  | nil => rfl
  | cons a l ih =>
    simp only [insertionSortB, firstMinBy]
    cases hs : insertionSortB (fun a b => Nat.ble (f a) (f b)) l with
    | nil =>
      have : l = [] := (insertionSortB_nil_iff _ l).mp hs
      subst this
      rfl
    | cons b t =>
      rw [hs] at ih
      simp only [List.head?] at ih
      rw [← ih]
      simp only [orderedInsertB]
      by_cases hab : f a ≤ f b
      · rw [if_pos (Nat.ble_eq.mpr hab), if_pos hab]
        rfl
      · rw [if_neg (by simpa using hab), if_neg hab]
        rfl

theorem mem_dedupAux [DecidableEq α] (seen : List α) (l : List α) (x : α) :
    x ∈ dedupAux seen l ↔ x ∈ l ∧ x ∉ seen := by
  induction l generalizing seen with
  | nil => simp [dedupAux]
  | cons a as ih =>
    simp only [dedupAux]
    by_cases h : a ∈ seen
    · rw [if_pos h, ih]
      constructor
      · rintro ⟨hx, hs⟩
        exact ⟨List.mem_cons_of_mem _ hx, hs⟩
      · rintro ⟨hx, hs⟩
        rcases List.mem_cons.mp hx with rfl | hx
        · exact absurd h hs
        · exact ⟨hx, hs⟩
    · rw [if_neg h]
      constructor
      · intro hx
        rcases List.mem_cons.mp hx with rfl | hx
        · exact ⟨List.mem_cons_self _ _, h⟩
        · rcases (ih _).mp hx with ⟨h1, h2⟩
          refine ⟨List.mem_cons_of_mem _ h1, fun hc => h2 ?_⟩
          exact List.mem_append_left _ hc
      · rintro ⟨hx, hs⟩
        rcases List.mem_cons.mp hx with rfl | hx
        · exact List.mem_cons_self _ _
        · by_cases hxa : x = a
          · subst hxa; exact List.mem_cons_self _ _
          · refine List.mem_cons_of_mem _ ((ih _).mpr ⟨hx, fun hc => ?_⟩)
            rcases List.mem_append.mp hc with hc | hc
            · exact hs hc
            · exact hxa (List.mem_singleton.mp hc)

theorem mem_dedupList [DecidableEq α] (l : List α) (x : α) :
    x ∈ dedupList l ↔ x ∈ l := by
  rw [dedupList, mem_dedupAux]
  simp

theorem nodup_dedupAux [DecidableEq α] (seen : List α) (l : List α) :
    (dedupAux seen l).Nodup := by
  induction l generalizing seen with
  | nil => exact List.nodup_nil
  | cons a as ih =>
    simp only [dedupAux]
    by_cases h : a ∈ seen
    · rw [if_pos h]; exact ih seen
    · rw [if_neg h]
      refine List.nodup_cons.mpr ⟨?_, ih _⟩
      intro hc
      rcases (mem_dedupAux _ _ _).mp hc with ⟨_, hs⟩
      simp at hs

theorem nodup_dedupList [DecidableEq α] (l : List α) : (dedupList l).Nodup :=
  nodup_dedupAux [] l

theorem dictFind_dictUpsert (k : String) (v : α) (d : List (String × α)) (k' : String) :
    dictFind (dictUpsert k v d) k' = if k = k' then some v else dictFind d k' := by
  induction d with
  | nil => simp [dictUpsert, dictFind]
  | cons e rest ih =>
    obtain ⟨ek, ev⟩ := e
    simp only [dictUpsert]
    by_cases hek : ek = k
    · rw [if_pos hek]
      subst hek
      simp only [dictFind]
      by_cases hk' : ek = k'
      · rw [if_pos hk', if_pos hk']
      · rw [if_neg hk', if_neg hk', if_neg hk']
    · rw [if_neg hek]
      simp only [dictFind, ih]
      by_cases hk' : k = k'
      · subst hk'
        simp [hek]
      · simp [hk']

theorem mem_of_dictFind (d : List (String × α)) (k : String) (v : α)
    (h : dictFind d k = some v) : (k, v) ∈ d := by
  induction d with
  | nil => simp [dictFind] at h
  | cons e rest ih =>
    obtain ⟨ek, ev⟩ := e
    simp only [dictFind] at h
    by_cases h1 : ek = k
    · rw [if_pos h1] at h
      subst h1
      injection h with h
      subst h
      exact List.mem_cons_self _ _
    · rw [if_neg h1] at h
      exact List.mem_cons_of_mem _ (ih h)

theorem unitIndex_find_sound (units : List SoftwareUnit) (k : String) (u : SoftwareUnit)
    (h : dictFind (unitIndex units) k = some u) : u ∈ units ∧ u.id = k := by
  suffices H : ∀ (us : List SoftwareUnit) (d : List (String × SoftwareUnit)),
      dictFind (us.foldl (fun d u => dictUpsert u.id u d) d) k = some u →
      (u ∈ us ∧ u.id = k) ∨ dictFind d k = some u by
    rcases H units [] h with h' | h'
    · exact h'
    · simp [dictFind] at h'
  intro us
  induction us with
  | nil => intro d h'; exact Or.inr h'
  | cons w ws ih =>
    intro d h'
    rcases ih (dictUpsert w.id w d) h' with h'' | h''
    · exact Or.inl ⟨List.mem_cons_of_mem _ h''.1, h''.2⟩
    · rw [dictFind_dictUpsert] at h''
      by_cases hk : w.id = k
      · rw [if_pos hk] at h''
        injection h'' with h''
        subst h''
        exact Or.inl ⟨List.mem_cons_self _ _, hk⟩
      · rw [if_neg hk] at h''
        exact Or.inr h''

theorem unitIndex_find_complete (units : List SoftwareUnit) (u : SoftwareUnit)
    (h : u ∈ units) : ∃ w, dictFind (unitIndex units) u.id = some w := by
  suffices H : ∀ (us : List SoftwareUnit) (d : List (String × SoftwareUnit)),
      u ∈ us ∨ (∃ w, dictFind d u.id = some w) →
      ∃ w, dictFind (us.foldl (fun d u => dictUpsert u.id u d) d) u.id = some w by
    exact H units [] (Or.inl h)
  intro us
  induction us with
  | nil =>
    intro d h'
    rcases h' with h' | h'
    · simp at h'
    · exact h'
  | cons w ws ih =>
    intro d h'
    apply ih (dictUpsert w.id w d)
    by_cases hw : u.id = w.id
    · right
      exact ⟨w, by rw [dictFind_dictUpsert, if_pos hw.symm]⟩
    · rcases h' with h' | h'
      · rcases List.mem_cons.mp h' with h'' | h''
        · exact absurd (by rw [h'']) hw
        · exact Or.inl h''
      · right
        rcases h' with ⟨v, hv⟩
        exact ⟨v, by rw [dictFind_dictUpsert, if_neg (fun hc => hw hc.symm)]; exact hv⟩

theorem mem_numbered (s : Nat) (l : List α) (j : Nat) (a : α) :
    (j, a) ∈ numbered s l ↔ ∃ i, s + i = j ∧ l[i]? = some a := by
  induction l generalizing s with
  | nil => simp [numbered]
  | cons b bs ih =>
    simp only [numbered, List.mem_cons, ih]
    constructor
    · rintro (h | ⟨i, hi, hg⟩)
      · injection h with h1 h2
        refine ⟨0, by omega, ?_⟩
        rw [h2]
        simp
      · exact ⟨i + 1, by omega, by simpa using hg⟩
    · rintro ⟨i, hi, hg⟩
      cases i with
      | zero =>
        left
        have hb : b = a := by simpa using hg
        subst hb
        have hj : j = s := by omega
        subst hj
        rfl
      | succ i =>
        right
        exact ⟨i, by omega, by simpa using hg⟩

theorem exists_numbered_of_mem (s : Nat) (l : List α) (a : α) (h : a ∈ l) :
    ∃ j, (j, a) ∈ numbered s l := by
  rcases List.getElem_of_mem h with ⟨i, hi, hg⟩
  exact ⟨s + i, (mem_numbered s l (s + i) a).mpr ⟨i, rfl, by rw [List.getElem?_eq_getElem hi, hg]⟩⟩

theorem snd_mem_of_mem_numbered (s : Nat) (l : List α) (j : Nat) (a : α)
    (h : (j, a) ∈ numbered s l) : a ∈ l := by
  rcases (mem_numbered s l j a).mp h with ⟨i, _, hg⟩
  exact List.getElem?_mem hg

theorem map_numbered (s : Nat) (l : List α) (g : α → β) :
    (numbered s l).map (fun nt => g nt.2) = l.map g := by
  induction l generalizing s with
  | nil => rfl
  | cons a as ih => simp only [numbered, List.map_cons, ih]

theorem listIsPref_append (k r : List Char) : listIsPref k (k ++ r) = true := by
  induction k with
  | nil => rfl
  | cons a as ih => simp [listIsPref, ih]

theorem strStartsWith_append (k r : String) : strStartsWith (k ++ r) k = true := by
  cases k with
  | mk kd =>
    cases r with
    | mk rd => exact listIsPref_append kd rd

theorem chunksFuel_congr (n : Nat) (f1 f2 : Nat) (l : List α)
    (h1 : l.length ≤ f1) (h2 : l.length ≤ f2) :
    chunksFuel n f1 l = chunksFuel n f2 l := by
  induction f1 generalizing f2 l with
  | zero =>
    have : l = [] := List.length_eq_zero.mp (by omega)
    subst this
    cases f2 <;> rfl
  | succ f1 ih =>
    cases l with
    | nil => cases f2 <;> rfl
    | cons a as =>
      cases f2 with
      | zero => simp at h2
      | succ f2 =>
        simp only [chunksFuel]
        congr 1
        apply ih
        · have := List.length_drop (n - 1) as
          simp only [List.length_cons] at h1
          omega
        · have := List.length_drop (n - 1) as
          simp only [List.length_cons] at h2
          omega

theorem chunks_nil (n : Nat) : chunks n ([] : List α) = [] := rfl

theorem chunks_cons (n : Nat) (a : α) (as : List α) :
    chunks n (a :: as) = (a :: as.take (n - 1)) :: chunks n (as.drop (n - 1)) := by
  show chunksFuel n (as.length + 1) (a :: as) = _
  simp only [chunksFuel]
  congr 1
  apply chunksFuel_congr
  · have := List.length_drop (n - 1) as
    omega
  · exact Nat.le_refl _

theorem chunks_join (n : Nat) (l : List α) : (chunks n l).flatten = l := by
  suffices H : ∀ (fuel : Nat) (l : List α), l.length ≤ fuel → (chunksFuel n fuel l).flatten = l from
    H l.length l (Nat.le_refl _)
  intro fuel
  induction fuel with
  | zero =>
    intro l hl
    have : l = [] := List.length_eq_zero.mp (by omega)
    subst this
    rfl
  | succ fuel ih =>
    intro l hl
    cases l with
    | nil => rfl
    | cons a as =>
      simp only [chunksFuel, List.flatten_cons]
      rw [ih (as.drop (n - 1)) (by simp only [List.length_cons] at hl; have := List.length_drop (n - 1) as; omega)]
      simp only [List.cons_append, List.take_append_drop]

theorem length_le_of_mem_chunks (n : Nat) (l : List α) (hn : 1 ≤ n) (c : List α)
    (hc : c ∈ chunks n l) : c.length ≤ n := by
  suffices H : ∀ (fuel : Nat) (l : List α), c ∈ chunksFuel n fuel l → c.length ≤ n from
    H l.length l hc
  intro fuel
  induction fuel with
  | zero => intro l hc'; simp [chunksFuel] at hc'
  | succ fuel ih =>
    intro l hc'
    cases l with
    | nil => simp [chunksFuel] at hc'
    | cons a as =>
      simp only [chunksFuel, List.mem_cons] at hc'
      rcases hc' with rfl | hc'
      · simp only [List.length_cons, List.length_take]
        omega
      · exact ih _ hc'

theorem exists_chunk_of_mem (n : Nat) (l : List α) (x : α) (h : x ∈ l) :
    ∃ c ∈ chunks n l, x ∈ c := by
  have := chunks_join n l
  rw [← this] at h
  rcases List.mem_flatten.mp h with ⟨c, hc, hx⟩
  exact ⟨c, hc, hx⟩

theorem bucketAdd_mem_self (k : String) (v : α) (m : List (String × List α)) :
    ∃ vs, (k, vs) ∈ bucketAdd k v m ∧ v ∈ vs := by
  induction m with
  | nil => exact ⟨[v], List.mem_singleton.mpr rfl, List.mem_singleton.mpr rfl⟩
  | cons e rest ih =>
    obtain ⟨ek, evs⟩ := e
    simp only [bucketAdd]
    by_cases h : ek = k
    · subst h
      rw [if_pos rfl]
      exact ⟨evs ++ [v], List.mem_cons_self _ _, List.mem_append_right _ (List.mem_singleton.mpr rfl)⟩
    · rw [if_neg h]
      rcases ih with ⟨vs, hmem, hv⟩
      exact ⟨vs, List.mem_cons_of_mem _ hmem, hv⟩

theorem bucketAdd_mono (k : String) (v : α) (m : List (String × List α)) (k' : String)
    (vs : List α) (h : (k', vs) ∈ m) :
    ∃ vs', (k', vs') ∈ bucketAdd k v m ∧ ∀ x ∈ vs, x ∈ vs' := by
  induction m with
  | nil => simp at h
  | cons e rest ih =>
    obtain ⟨ek, evs⟩ := e
    simp only [bucketAdd]
    by_cases hek : ek = k
    · rw [if_pos hek]
      rcases List.mem_cons.mp h with h | h
      · injection h with h1 h2
        subst h1; subst h2
        exact ⟨vs ++ [v], List.mem_cons_self _ _, fun x hx => List.mem_append_left _ hx⟩
      · exact ⟨vs, List.mem_cons_of_mem _ h, fun x hx => hx⟩
    · rw [if_neg hek]
      rcases List.mem_cons.mp h with h | h
      · injection h with h1 h2
        subst h1; subst h2
        exact ⟨vs, List.mem_cons_self _ _, fun x hx => hx⟩
      · rcases ih h with ⟨vs', hmem, hsub⟩
        exact ⟨vs', List.mem_cons_of_mem _ hmem, hsub⟩

theorem foldl_bucketAdd_mem (key : α → String) (l : List α) (m : List (String × List α))
    (x : α) (h : (∃ vs, (key x, vs) ∈ m ∧ x ∈ vs) ∨ x ∈ l) :
    ∃ vs, (key x, vs) ∈ l.foldl (fun m a => bucketAdd (key a) a m) m ∧ x ∈ vs := by
  induction l generalizing m with
  | nil =>
    rcases h with h | h
    · exact h
    · simp at h
  | cons a as ih =>
    simp only [List.foldl_cons]
    apply ih
    rcases h with ⟨vs, hmem, hx⟩ | h
    · rcases bucketAdd_mono (key a) a m (key x) vs hmem with ⟨vs', hmem', hsub'⟩
      exact Or.inl ⟨vs', hmem', hsub' x hx⟩
    · rcases List.mem_cons.mp h with h | h
      · subst h
        rcases bucketAdd_mem_self (key x) x m with ⟨vs, hmem, hv⟩
        exact Or.inl ⟨vs, hmem, hv⟩
      · exact Or.inr h

theorem bucketAdd_preserve (P : String × List α → Prop) (k : String) (v : α)
    (m : List (String × List α))
    (hm : ∀ kv ∈ m, P kv)
    (hnew : ∀ vs, P (k, vs) → P (k, vs ++ [v]))
    (hsingle : P (k, [v])) :
    ∀ kv ∈ bucketAdd k v m, P kv := by
  induction m with
  | nil =>
    intro kv hkv
    rcases List.mem_singleton.mp hkv with rfl
    exact hsingle
  | cons e rest ih =>
    obtain ⟨ek, evs⟩ := e
    intro kv hkv
    simp only [bucketAdd] at hkv
    by_cases hek : ek = k
    · subst hek
      rw [if_pos rfl] at hkv
      rcases List.mem_cons.mp hkv with rfl | h
      · exact hnew evs (hm _ (List.mem_cons_self _ _))
      · exact hm _ (List.mem_cons_of_mem _ h)
    · rw [if_neg hek] at hkv
      rcases List.mem_cons.mp hkv with rfl | h
      · exact hm _ (List.mem_cons_self _ _)
      · exact ih (fun kv h => hm kv (List.mem_cons_of_mem _ h)) kv h

theorem foldl_bucketAdd_key (key : α → String) (l : List α) (m : List (String × List α))
    (hm : ∀ kv ∈ m, ∀ x ∈ kv.2, key x = kv.1) :
    ∀ kv ∈ l.foldl (fun m a => bucketAdd (key a) a m) m, ∀ x ∈ kv.2, key x = kv.1 := by
  induction l generalizing m with
  | nil => exact hm
  | cons a as ih =>
    simp only [List.foldl_cons]
    apply ih
    apply bucketAdd_preserve _ _ _ _ hm
    · intro vs hvs x hx
      rcases List.mem_append.mp hx with hx | hx
      · exact hvs x hx
      · rcases List.mem_singleton.mp hx with rfl
        rfl
    · intro x hx
      rcases List.mem_singleton.mp hx with rfl
      rfl

theorem foldl_bucketAdd_nonempty (key : α → String) (l : List α)
    (m : List (String × List α)) (hm : ∀ kv ∈ m, kv.2 ≠ []) :
    ∀ kv ∈ l.foldl (fun m a => bucketAdd (key a) a m) m, kv.2 ≠ [] := by
  induction l generalizing m with
  | nil => exact hm
  | cons a as ih =>
    simp only [List.foldl_cons]
    apply ih
    apply bucketAdd_preserve _ _ _ _ hm
    · intro vs _
      simp
    · simp

theorem buckets_mem (units : List SoftwareUnit) (u : SoftwareUnit) (hu : u ∈ units) :
    ∃ vs, (unitKey u, vs) ∈ buckets units ∧ u ∈ vs :=
  foldl_bucketAdd_mem unitKey units [] u (Or.inr hu)

theorem mem_plan_of_chunk (maxU : Nat) (units : List SoftwareUnit)
    (kv : String × List SoftwareUnit) (hkv : kv ∈ buckets units)
    (c : List SoftwareUnit) (hc : c ∈ chunks maxU (insertionSortB riskGeB kv.2)) :
    ∃ p ∈ plan maxU units, p.software_unit_ids = c.map (·.id)
      ∧ ∃ j : Nat, p.name = kv.1 ++ "#" ++ toString j := by
  rcases exists_numbered_of_mem 1 _ c hc with ⟨j, hj⟩
  have htag : (kv.1, (j, c)) ∈ (buckets units).flatMap
      (fun kv => (numbered 1 (chunks maxU (insertionSortB riskGeB kv.2))).map
        (fun jc => (kv.1, jc))) := by
    apply List.mem_flatMap.mpr
    exact ⟨kv, hkv, List.mem_map_of_mem _ hj⟩
  rcases exists_numbered_of_mem 1 _ _ htag with ⟨n, hn⟩
  refine ⟨mkPackage n kv.1 j c, ?_, rfl, j, rfl⟩
  exact List.mem_map_of_mem (fun nt => mkPackage nt.1 nt.2.1 nt.2.2.1 nt.2.2.2) hn

theorem isCoherent_of_name (p : WorkPackage) (u : SoftwareUnit) (r : String)
    (h : p.name = unitKey u ++ "#" ++ r) : isCoherent p u = true := by
  rw [isCoherent, h, String.append_assoc]
  exact strStartsWith_append _ _

theorem plan_covers (maxU : Nat) (units : List SoftwareUnit) (u : SoftwareUnit)
    (hu : u ∈ units) :
    ∃ p ∈ plan maxU units, u.id ∈ p.software_unit_ids ∧ isCoherent p u = true := by
  rcases buckets_mem units u hu with ⟨vs, hkv, hv⟩
  have hsort : u ∈ insertionSortB riskGeB vs := (mem_insertionSortB _ _ _).mpr hv
  rcases exists_chunk_of_mem maxU _ u hsort with ⟨c, hc, huc⟩
  rcases mem_plan_of_chunk maxU units (unitKey u, vs) hkv c hc with ⟨p, hp, hids, j, hname⟩
  refine ⟨p, hp, ?_, isCoherent_of_name p u (toString j) hname⟩
  rw [hids]
  exact List.mem_map_of_mem _ huc

theorem list_set_self (l : List α) (i : Nat) (v : α) (h : l[i]? = some v) :
    l.set i v = l := by
  induction l generalizing i with
  | nil => rfl
  | cons a as ih =>
    cases i with
    | zero =>
      simp only [List.getElem?_cons_zero] at h
      injection h with h
      rw [List.set_cons_zero, h]
    | succ i =>
      simp only [List.getElem?_cons_succ] at h
      rw [List.set_cons_succ, ih i h]

theorem mem_set_of_getElem (l : List α) (i : Nat) (v : α) (h : i < l.length) :
    v ∈ l.set i v := by
  induction l generalizing i with
  | nil => simp at h
  | cons a as ih =>
    cases i with
    | zero => rw [List.set_cons_zero]; exact List.mem_cons_self _ _
    | succ i =>
      rw [List.set_cons_succ]
      exact List.mem_cons_of_mem _ (ih i (by simpa using h))

theorem cand_sound (st : RepairState) (u : SoftwareUnit)
    (c : Nat × WorkPackage)
    (hc : c ∈ (numbered 0 st.pkgs).filter (fun c => isCoherent c.2 u)) :
    st.pkgs[c.1]? = some c.2 ∧ isCoherent c.2 u = true := by
  rcases List.mem_filter.mp hc with ⟨hmem, hcoh⟩
  rcases (mem_numbered 0 st.pkgs c.1 c.2).mp (by exact hmem) with ⟨i, hi, hg⟩
  constructor
  · have : i = c.1 := by omega
    rw [← this]
    exact hg
  · exact hcoh

theorem repairStep_cases (bound : List String) (st : RepairState)
    (e : String × SoftwareUnit) :
    (e.1 ∈ bound ∧ repairStep bound st e = st)
    ∨ (∃ c : Nat × WorkPackage, st.pkgs[c.1]? = some c.2 ∧ isCoherent c.2 e.2 = true
        ∧ repairStep bound st e = { st with pkgs := st.pkgs.set c.1 (updPkg c.2 e.1) }
        ∧ e.1 ∉ bound)
    ∨ ((∀ p ∈ st.pkgs, isCoherent p e.2 = false)
        ∧ repairStep bound st e = { st with unbound := st.unbound ++ [e.1] }
        ∧ e.1 ∉ bound) := by
  by_cases hb : e.1 ∈ bound
  · left
    exact ⟨hb, by simp only [repairStep, if_pos hb]⟩
  · right
    cases hh : (insertionSortB loadLeIdx
        ((numbered 0 st.pkgs).filter (fun c => isCoherent c.2 e.2))).head? with
    | some c =>
      left
      have hcmem : c ∈ (numbered 0 st.pkgs).filter (fun c => isCoherent c.2 e.2) := by
        have h1 : c ∈ insertionSortB loadLeIdx
            ((numbered 0 st.pkgs).filter (fun c => isCoherent c.2 e.2)) :=
          List.mem_of_mem_head? (by simp [hh])
        exact (mem_insertionSortB _ _ _).mp h1
      rcases cand_sound st e.2 c hcmem with ⟨hidx, hcoh⟩
      refine ⟨c, hidx, hcoh, ?_, hb⟩
      simp only [repairStep, if_neg hb, hh]
    | none =>
      right
      have hnil : (numbered 0 st.pkgs).filter (fun c => isCoherent c.2 e.2) = [] := by
        apply (insertionSortB_nil_iff loadLeIdx _).mp
        exact List.head?_eq_none_iff.mp hh
      refine ⟨?_, ?_, hb⟩
      · intro p hp
        rcases List.getElem_of_mem hp with ⟨i, hi, hgi⟩
        have hmem : (i, p) ∈ numbered 0 st.pkgs :=
          (mem_numbered 0 st.pkgs i p).mpr ⟨i, by omega, by rw [List.getElem?_eq_getElem hi, hgi]⟩
        by_cases hcoh : isCoherent p e.2 = true
        · exfalso
          have : (i, p) ∈ (numbered 0 st.pkgs).filter (fun c => isCoherent c.2 e.2) :=
            List.mem_filter.mpr ⟨hmem, hcoh⟩
          rw [hnil] at this
          simp at this
        · simpa using hcoh
      · simp only [repairStep, if_neg hb, hh]

theorem mem_set_cases (l : List α) (i : Nat) (b : α) (p : α) (hp : p ∈ l)
    (hi : i < l.length) :
    p ∈ l.set i b ∨ l[i]? = some p := by
  rcases List.getElem_of_mem hp with ⟨j, hj, hgj⟩
  by_cases hij : i = j
  · subst hij
    right
    rw [List.getElem?_eq_getElem hj, hgj]
  · left
    have hij' : (l.set i b)[j]? = some p := by
      rw [List.getElem?_set_ne hij, List.getElem?_eq_getElem hj, hgj]
    exact List.getElem?_mem hij'

theorem repairStep_bound_mono (bound : List String) (st : RepairState)
    (e : String × SoftwareUnit) (I : String)
    (h : ∃ p ∈ st.pkgs, I ∈ p.software_unit_ids) :
    ∃ p ∈ (repairStep bound st e).pkgs, I ∈ p.software_unit_ids := by
  rcases repairStep_cases bound st e with ⟨_, heq⟩ | ⟨c, hidx, _, heq, _⟩ | ⟨_, heq, _⟩
  · rw [heq]; exact h
  · rw [heq]
    rcases h with ⟨p, hp, hI⟩
    have hlt : c.1 < st.pkgs.length := (List.getElem?_eq_some.mp hidx).1
    rcases mem_set_cases st.pkgs c.1 (updPkg c.2 e.1) p hp hlt with hmem | hmem
    · exact ⟨p, hmem, hI⟩
    · refine ⟨updPkg c.2 e.1, mem_set_of_getElem _ _ _ hlt, ?_⟩
      have hpc : p = c.2 := by
        rw [hmem] at hidx
        injection hidx with hidx
      rw [hpc] at hI
      exact List.mem_append_left _ hI
  · rw [heq]; exact h

theorem repairStep_unbound_mono (bound : List String) (st : RepairState)
    (e : String × SoftwareUnit) (I : String) (h : I ∈ st.unbound) :
    I ∈ (repairStep bound st e).unbound := by
  rcases repairStep_cases bound st e with ⟨_, heq⟩ | ⟨c, _, _, heq, _⟩ | ⟨_, heq, _⟩
  · rw [heq]; exact h
  · rw [heq]; exact h
  · rw [heq]; exact List.mem_append_left _ h

theorem repairStep_names (bound : List String) (st : RepairState)
    (e : String × SoftwareUnit) :
    (repairStep bound st e).pkgs.map (·.name) = st.pkgs.map (·.name) := by
  rcases repairStep_cases bound st e with ⟨_, heq⟩ | ⟨c, hidx, _, heq, _⟩ | ⟨_, heq, _⟩
  · rw [heq]
  · rw [heq]
    show (st.pkgs.set c.1 (updPkg c.2 e.1)).map (·.name) = st.pkgs.map (·.name)
    rw [List.map_set]
    apply list_set_self
    rw [List.getElem?_map, hidx]
    rfl
  · rw [heq]

theorem foldRepair_bound_mono (bound : List String) (es : List (String × SoftwareUnit))
    (st : RepairState) (I : String) (h : ∃ p ∈ st.pkgs, I ∈ p.software_unit_ids) :
    ∃ p ∈ (es.foldl (repairStep bound) st).pkgs, I ∈ p.software_unit_ids := by
  induction es generalizing st with
  | nil => exact h
  | cons e es ih => exact ih _ (repairStep_bound_mono bound st e I h)

theorem foldRepair_unbound_mono (bound : List String) (es : List (String × SoftwareUnit))
    (st : RepairState) (I : String) (h : I ∈ st.unbound) :
    I ∈ (es.foldl (repairStep bound) st).unbound := by
  induction es generalizing st with
  | nil => exact h
  | cons e es ih => exact ih _ (repairStep_unbound_mono bound st e I h)

theorem foldRepair_names (bound : List String) (es : List (String × SoftwareUnit))
    (st : RepairState) :
    ((es.foldl (repairStep bound) st).pkgs).map (·.name) = st.pkgs.map (·.name) := by
  induction es generalizing st with
  | nil => rfl
  | cons e es ih => rw [List.foldl_cons, ih _, repairStep_names]

theorem foldRepair_covers (bound : List String) (es : List (String × SoftwareUnit))
    (st : RepairState)
    (hInv : ∀ I ∈ bound, ∃ p ∈ st.pkgs, I ∈ p.software_unit_ids) :
    ∀ e ∈ es, (∃ p ∈ (es.foldl (repairStep bound) st).pkgs, e.1 ∈ p.software_unit_ids)
      ∨ e.1 ∈ (es.foldl (repairStep bound) st).unbound := by
  induction es generalizing st with
  | nil => intro e he; simp at he
  | cons e' es ih =>
    intro e he
    have hInv' : ∀ I ∈ bound, ∃ p ∈ (repairStep bound st e').pkgs, I ∈ p.software_unit_ids :=
      fun I hI => repairStep_bound_mono bound st e' I (hInv I hI)
    rcases List.mem_cons.mp he with rfl | he'
    · rw [List.foldl_cons]
      rcases repairStep_cases bound st e with ⟨hb, heq⟩ | ⟨c, hidx, _, heq, _⟩ | ⟨_, heq, _⟩
      · left
        exact foldRepair_bound_mono bound es _ e.1 (by rw [heq]; exact hInv e.1 hb)
      · left
        apply foldRepair_bound_mono bound es _ e.1
        rw [heq]
        have hlt : c.1 < st.pkgs.length := (List.getElem?_eq_some.mp hidx).1
        refine ⟨updPkg c.2 e.1, mem_set_of_getElem _ _ _ hlt, ?_⟩
        exact List.mem_append_right _ (List.mem_singleton.mpr rfl)
      · right
        apply foldRepair_unbound_mono bound es _ e.1
        rw [heq]
        exact List.mem_append_right _ (List.mem_singleton.mpr rfl)
    · rw [List.foldl_cons]
      exact ih (repairStep bound st e') hInv' e he'

theorem mem_dictUpsert (k : String) (v : α) (d : List (String × α))
    (kv : String × α) (h : kv ∈ dictUpsert k v d) : kv = (k, v) ∨ kv ∈ d := by
  induction d with
  | nil => simpa [dictUpsert] using h
  | cons e rest ih =>
    obtain ⟨ek, ev⟩ := e
    simp only [dictUpsert] at h
    by_cases hek : ek = k
    · rw [if_pos hek] at h
      rcases List.mem_cons.mp h with rfl | h
      · exact Or.inl rfl
      · exact Or.inr (List.mem_cons_of_mem _ h)
    · rw [if_neg hek] at h
      rcases List.mem_cons.mp h with rfl | h
      · exact Or.inr (List.mem_cons_self _ _)
      · rcases ih h with h | h
        · exact Or.inl h
        · exact Or.inr (List.mem_cons_of_mem _ h)

theorem unitIndex_entries (units : List SoftwareUnit) (e : String × SoftwareUnit)
    (h : e ∈ unitIndex units) : e.2 ∈ units ∧ e.2.id = e.1 := by
  suffices H : ∀ (us : List SoftwareUnit) (d : List (String × SoftwareUnit)),
      e ∈ us.foldl (fun d u => dictUpsert u.id u d) d →
      (e.2 ∈ us ∧ e.2.id = e.1) ∨ e ∈ d by
    rcases H units [] h with h' | h'
    · exact h'
    · simp at h'
  intro us
  induction us with
  | nil => intro d h'; exact Or.inr h'
  | cons w ws ih =>
    intro d h'
    rcases ih (dictUpsert w.id w d) h' with h'' | h''
    · exact Or.inl ⟨List.mem_cons_of_mem _ h''.1, h''.2⟩
    · rcases mem_dictUpsert w.id w d e h'' with h3 | h3
      · rw [h3]
        exact Or.inl ⟨List.mem_cons_self _ _, rfl⟩
      · exact Or.inr h3

theorem isCoherent_congr_name (p q : WorkPackage) (u : SoftwareUnit)
    (h : p.name = q.name) : isCoherent p u = isCoherent q u := by
  rw [isCoherent, isCoherent, h]

theorem repairStep_coherent (units : List SoftwareUnit) (bound : List String)
    (st : RepairState) (e : String × SoftwareUnit)
    (he : e.2 ∈ units ∧ e.2.id = e.1)
    (hInv : ∀ p ∈ st.pkgs, ∀ uid ∈ p.software_unit_ids,
      ∃ u ∈ units, u.id = uid ∧ isCoherent p u = true) :
    ∀ p ∈ (repairStep bound st e).pkgs, ∀ uid ∈ p.software_unit_ids,
      ∃ u ∈ units, u.id = uid ∧ isCoherent p u = true := by
  rcases repairStep_cases bound st e with ⟨_, heq⟩ | ⟨c, hidx, hcoh, heq, _⟩ | ⟨_, heq, _⟩
  · rw [heq]; exact hInv
  · rw [heq]
    intro p hp uid huid
    rcases List.mem_or_eq_of_mem_set hp with hp' | hp'
    · exact hInv p hp' uid huid
    · subst hp'
      have hc2mem : c.2 ∈ st.pkgs := List.getElem?_mem hidx
      have hname : (updPkg c.2 e.1).name = c.2.name := rfl
      rcases List.mem_append.mp huid with huid' | huid'
      · rcases hInv c.2 hc2mem uid huid' with ⟨u, hu, hid, hcoh'⟩
        refine ⟨u, hu, hid, ?_⟩
        rw [isCoherent_congr_name _ c.2 u hname]
        exact hcoh'
      · rcases List.mem_singleton.mp huid' with rfl
        refine ⟨e.2, he.1, he.2, ?_⟩
        rw [isCoherent_congr_name _ c.2 e.2 hname]
        exact hcoh
  · rw [heq]; exact hInv

theorem foldRepair_coherent (units : List SoftwareUnit) (bound : List String)
    (es : List (String × SoftwareUnit)) (st : RepairState)
    (hes : ∀ e ∈ es, e.2 ∈ units ∧ e.2.id = e.1)
    (hInv : ∀ p ∈ st.pkgs, ∀ uid ∈ p.software_unit_ids,
      ∃ u ∈ units, u.id = uid ∧ isCoherent p u = true) :
    ∀ p ∈ (es.foldl (repairStep bound) st).pkgs, ∀ uid ∈ p.software_unit_ids,
      ∃ u ∈ units, u.id = uid ∧ isCoherent p u = true := by
  induction es generalizing st with
  | nil => exact hInv
  | cons e es ih =>
    rw [List.foldl_cons]
    exact ih _ (fun e' he' => hes e' (List.mem_cons_of_mem _ he'))
      (repairStep_coherent units bound st e (hes e (List.mem_cons_self _ _)) hInv)

theorem coherent_transfer (pkgs0 : List WorkPackage) (pkgs : List WorkPackage)
    (hnames : pkgs.map (·.name) = pkgs0.map (·.name))
    (u : SoftwareUnit) (hall : ∀ q ∈ pkgs, isCoherent q u = false) :
    ∀ p ∈ pkgs0, isCoherent p u = false := by
  intro p hp
  rcases List.getElem_of_mem hp with ⟨i, hi, hgi⟩
  have hlen : pkgs.length = pkgs0.length := by
    have := congrArg List.length hnames
    simpa using this
  have hi' : i < pkgs.length := by omega
  have h1 : (pkgs.map (·.name))[i]? = (pkgs0.map (·.name))[i]? := by rw [hnames]
  rw [List.getElem?_map, List.getElem?_map, List.getElem?_eq_getElem hi] at h1
  cases hq : pkgs[i]? with
  | none =>
    rw [hq] at h1
    simp at h1
  | some q =>
    rw [hq] at h1
    simp only [Option.map_some'] at h1
    injection h1 with h1
    rw [← isCoherent_congr_name q p u (by rw [h1, hgi])]
    exact hall q (List.getElem?_mem hq)

theorem repairStep_unbound_char (units : List SoftwareUnit)
    (pkgs0 : List WorkPackage) (bound : List String)
    (st : RepairState) (e : String × SoftwareUnit)
    (he : e.2 ∈ units ∧ e.2.id = e.1)
    (hnames : st.pkgs.map (·.name) = pkgs0.map (·.name))
    (hInv : ∀ uid ∈ st.unbound,
      ∃ u ∈ units, u.id = uid ∧ ∀ p ∈ pkgs0, isCoherent p u = false) :
    ∀ uid ∈ (repairStep bound st e).unbound,
      ∃ u ∈ units, u.id = uid ∧ ∀ p ∈ pkgs0, isCoherent p u = false := by
  rcases repairStep_cases bound st e with ⟨_, heq⟩ | ⟨c, _, _, heq, _⟩ | ⟨hnone, heq, _⟩
  · rw [heq]; exact hInv
  · rw [heq]; exact hInv
  · rw [heq]
    intro uid huid
    rcases List.mem_append.mp huid with huid' | huid'
    · exact hInv uid huid'
    · rcases List.mem_singleton.mp huid' with rfl
      exact ⟨e.2, he.1, he.2, coherent_transfer pkgs0 st.pkgs hnames e.2 hnone⟩

theorem foldRepair_unbound_char (units : List SoftwareUnit)
    (pkgs0 : List WorkPackage) (bound : List String)
    (es : List (String × SoftwareUnit)) (st : RepairState)
    (hes : ∀ e ∈ es, e.2 ∈ units ∧ e.2.id = e.1)
    (hnames : st.pkgs.map (·.name) = pkgs0.map (·.name))
    (hInv : ∀ uid ∈ st.unbound,
      ∃ u ∈ units, u.id = uid ∧ ∀ p ∈ pkgs0, isCoherent p u = false) :
    ∀ uid ∈ (es.foldl (repairStep bound) st).unbound,
      ∃ u ∈ units, u.id = uid ∧ ∀ p ∈ pkgs0, isCoherent p u = false := by
  induction es generalizing st with
  | nil => exact hInv
  | cons e es ih =>
    rw [List.foldl_cons]
    refine ih _ (fun e' he' => hes e' (List.mem_cons_of_mem _ he')) ?_ ?_
    · rw [repairStep_names]
      exact hnames
    · exact repairStep_unbound_char units pkgs0 bound st e
        (hes e (List.mem_cons_self _ _)) hnames hInv

theorem matchUnits_pkgs_def (units : List SoftwareUnit) (pkgs : List WorkPackage) :
    (matchUnits units pkgs).work_packages =
      ((unitIndex units).foldl
        (repairStep ((pkgs.map (step1Pkg (unitIndex units))).flatMap (·.software_unit_ids)))
        ⟨pkgs.map (step1Pkg (unitIndex units)), []⟩).pkgs := rfl

theorem matchUnits_unbound_def (units : List SoftwareUnit) (pkgs : List WorkPackage) :
    (matchUnits units pkgs).unbound_units =
      ((unitIndex units).foldl
        (repairStep ((pkgs.map (step1Pkg (unitIndex units))).flatMap (·.software_unit_ids)))
        ⟨pkgs.map (step1Pkg (unitIndex units)), []⟩).unbound := rfl

theorem step1_coherent (units : List SoftwareUnit) (pkgs : List WorkPackage) :
    ∀ p ∈ pkgs.map (step1Pkg (unitIndex units)), ∀ uid ∈ p.software_unit_ids,
      ∃ u ∈ units, u.id = uid ∧ isCoherent p u = true := by
  intro p' hp' uid huid
  rcases List.mem_map.mp hp' with ⟨p, hp, hpeq⟩
  subst hpeq
  have hmem := List.mem_filter.mp huid
  rcases hmem with ⟨_, hv⟩
  cases hd : dictFind (unitIndex units) uid with
  | none =>
    simp only [validBinding, hd] at hv
    exact absurd hv (by decide)
  | some u =>
    simp only [validBinding, hd] at hv
    rcases unitIndex_find_sound units uid u hd with ⟨hu, hid⟩
    exact ⟨u, hu, hid, hv⟩

theorem step1_names (idx : List (String × SoftwareUnit)) (pkgs : List WorkPackage) :
    (pkgs.map (step1Pkg idx)).map (·.name) = pkgs.map (·.name) := by
  induction pkgs with
  | nil => rfl
  | cons p ps ih =>
    simp only [List.map_cons, ih]
    rfl

theorem loadLeIdx_eq :
    loadLeIdx = fun a b : Nat × WorkPackage =>
      Nat.ble a.2.software_unit_ids.length b.2.software_unit_ids.length := rfl

theorem repairStep_eq_spec (bound : List String) (st : RepairState)
    (e : String × SoftwareUnit) :
    repairStep bound st e = repairStepSpec bound st e := by
  by_cases hb : e.1 ∈ bound
  · simp only [repairStep, repairStepSpec, if_pos hb]
  · simp only [repairStep, repairStepSpec, if_neg hb]
    rw [loadLeIdx_eq,
      head_insertionSortB_ble (fun c : Nat × WorkPackage => c.2.software_unit_ids.length)]

theorem foldl_repair_eq (bound : List String) (es : List (String × SoftwareUnit))
    (st : RepairState) :
    es.foldl (repairStep bound) st = es.foldl (repairStepSpec bound) st := by
  rw [show repairStep bound = repairStepSpec bound from
    funext fun st => funext fun e => repairStep_eq_spec bound st e]

theorem matchUnits_eq_spec (units : List SoftwareUnit) (pkgs : List WorkPackage) :
    matchUnits units pkgs = matchUnitsSpec units pkgs := by
  simp only [matchUnits, matchUnitsSpec, foldl_repair_eq]

theorem match_keeps_covered (units : List SoftwareUnit) (pkgs : List WorkPackage)
    (hcov : ∀ uid uu, dictFind (unitIndex units) uid = some uu →
      ∃ p ∈ pkgs, uid ∈ p.software_unit_ids ∧ isCoherent p uu = true) :
    ∀ u ∈ units, ∃ p ∈ (matchUnits units pkgs).work_packages, u.id ∈ p.software_unit_ids := by
  intro u hu
  rw [matchUnits_pkgs_def]
  rcases unitIndex_find_complete units u hu with ⟨w, hw⟩
  rcases hcov u.id w hw with ⟨p, hp, hid, hcoh⟩
  apply foldRepair_bound_mono
  refine ⟨step1Pkg (unitIndex units) p, List.mem_map_of_mem _ hp, ?_⟩
  apply List.mem_filter.mpr
  refine ⟨hid, ?_⟩
  simp only [validBinding, hw]
  exact hcoh

theorem auditScan_covered (l : List String) (st : List String × List (String × Nat))
    (x : String) :
    x ∈ (l.foldl auditScanStep st).1 ↔ x ∈ st.1 ∨ x ∈ l := by
  induction l generalizing st with
  | nil => simp
  | cons uid rest ih =>
    rw [List.foldl_cons]
    rw [ih]
    simp only [auditScanStep]
    by_cases h : uid ∈ st.1
    · rw [if_pos h]
      simp only [List.mem_cons]
      constructor
      · rintro (hx | hx)
        · exact Or.inl hx
        · exact Or.inr (Or.inr hx)
      · rintro (hx | rfl | hx)
        · exact Or.inl hx
        · exact Or.inl h
        · exact Or.inr hx
    · rw [if_neg h]
      simp only [List.mem_append, List.mem_singleton, List.mem_cons]
      tauto

theorem dictFind_dictBump_ne (u : String) (d : List (String × Nat)) (k : String)
    (h : u ≠ k) : dictFind (dictBump u d) k = dictFind d k := by
  induction d with
  | nil => simp [dictBump, dictFind, h]
  | cons e rest ih =>
    obtain ⟨ek, ev⟩ := e
    by_cases hek : ek = u
    · simp [dictBump, dictFind, hek, h]
    · simp [dictBump, dictFind, hek, ih]

theorem dictFind_dictBump_some (u : String) (d : List (String × Nat)) (m : Nat)
    (h : dictFind d u = some m) : dictFind (dictBump u d) u = some (m + 1) := by
  induction d with
  | nil => simp [dictFind] at h
  | cons e rest ih =>
    obtain ⟨ek, ev⟩ := e
    by_cases hek : ek = u
    · simp only [dictFind, hek, if_pos rfl] at h
      injection h with h
      simp [dictBump, dictFind, hek, h]
    · simp only [dictFind, if_neg hek] at h
      simp [dictBump, dictFind, hek, ih h]

theorem dictFind_dictBump_none (u : String) (d : List (String × Nat))
    (h : dictFind d u = none) : dictFind (dictBump u d) u = some 2 := by
  induction d with
  | nil => simp [dictBump, dictFind]
  | cons e rest ih =>
    obtain ⟨ek, ev⟩ := e
    by_cases hek : ek = u
    · simp only [dictFind, hek, if_pos rfl] at h
      simp at h
    · simp only [dictFind, if_neg hek] at h
      simp [dictBump, dictFind, hek, ih h]

theorem count_append_singleton (pre : List String) (uid k : String) :
    (pre ++ [uid]).count k = pre.count k + (if uid = k then 1 else 0) := by
  by_cases huk : uid = k
  · subst huk
    rw [if_pos rfl, List.count_append]
    simp
  · rw [if_neg huk, List.count_append]
    have hz : ([uid] : List String).count k = 0 := by
      apply List.count_eq_zero.mpr
      intro hcon
      exact huk (List.mem_singleton.mp hcon).symm
    rw [hz]

theorem auditScan_dups (l : List String) (c0 : List String) (d0 : List (String × Nat))
    (pre : List String)
    (hc : ∀ x, x ∈ c0 ↔ x ∈ pre)
    (hd : ∀ k, dictFind d0 k = if 2 ≤ pre.count k then some (pre.count k) else none) :
    ∀ k, dictFind ((l.foldl auditScanStep (c0, d0)).2) k =
      if 2 ≤ (pre ++ l).count k then some ((pre ++ l).count k) else none := by
  induction l generalizing c0 d0 pre with
  | nil => intro k; rw [List.append_nil]; exact hd k
  | cons uid rest ih =>
    rw [List.foldl_cons]
    intro k
    have hres : (pre ++ uid :: rest).count k = ((pre ++ [uid]) ++ rest).count k := by
      simp [List.count_append, List.count_cons]
    rw [hres]
    have hc' : ∀ x, x ∈ c0 ∨ x = uid ↔ x ∈ pre ++ [uid] := by
      intro x
      rw [List.mem_append, List.mem_singleton, hc x]
    simp only [auditScanStep]
    by_cases h : uid ∈ c0
    · rw [if_pos h]
      apply ih c0 (dictBump uid d0) (pre ++ [uid])
      · intro x
        rw [← hc' x]
        constructor
        · intro hx; exact Or.inl hx
        · rintro (hx | rfl)
          · exact hx
          · exact h
      · intro k'
        by_cases huk : uid = k'
        · subst huk
          rw [count_append_singleton, if_pos rfl]
          have hpos : 0 < pre.count uid := List.count_pos_iff.mpr ((hc uid).mp h)
          by_cases h2 : 2 ≤ pre.count uid
          · rw [dictFind_dictBump_some uid d0 (pre.count uid) (by rw [hd uid, if_pos h2])]
            rw [if_pos (by omega)]
          · have h1 : pre.count uid = 1 := by omega
            rw [dictFind_dictBump_none uid d0 (by rw [hd uid, if_neg h2])]
            rw [if_pos (by omega), h1]
        · rw [dictFind_dictBump_ne uid d0 k' huk, hd k', count_append_singleton, if_neg huk]
          simp
    · rw [if_neg h]
      apply ih (c0 ++ [uid]) d0 (pre ++ [uid])
      · intro x
        rw [← hc' x, List.mem_append, List.mem_singleton]
      · intro k'
        rw [hd k', count_append_singleton]
        by_cases huk : uid = k'
        · subst huk
          have hz : pre.count uid = 0 := by
            apply List.count_eq_zero.mpr
            intro hcc
            exact h ((hc uid).mpr hcc)
          rw [hz, if_pos rfl]
          simp
        · rw [if_neg huk]
          simp

theorem dictBump_keys (u : String) (d : List (String × Nat)) (k : String) :
    k ∈ (dictBump u d).map (·.1) ↔ k = u ∨ k ∈ d.map (·.1) := by
  induction d with
  | nil => simp [dictBump]
  | cons e rest ih =>
    obtain ⟨ek, ev⟩ := e
    simp only [dictBump]
    by_cases hek : ek = u
    · subst hek
      rw [if_pos rfl]
      simp only [List.map_cons, List.mem_cons]
      tauto
    · rw [if_neg hek]
      simp only [List.map_cons, List.mem_cons, ih]
      tauto

theorem nodup_dictBump (u : String) (d : List (String × Nat))
    (h : (d.map (·.1)).Nodup) : ((dictBump u d).map (·.1)).Nodup := by
  induction d with
  | nil => simp [dictBump]
  | cons e rest ih =>
    obtain ⟨ek, ev⟩ := e
    simp only [dictBump]
    simp only [List.map_cons, List.nodup_cons] at h
    by_cases hek : ek = u
    · subst hek
      rw [if_pos rfl]
      simp only [List.map_cons, List.nodup_cons]
      exact h
    · rw [if_neg hek]
      simp only [List.map_cons, List.nodup_cons]
      refine ⟨?_, ih h.2⟩
      intro hcon
      rcases (dictBump_keys u rest ek).mp hcon with rfl | hcon
      · exact hek rfl
      · exact h.1 hcon

theorem auditScan_keysNodup (l : List String) (st : List String × List (String × Nat))
    (h : (st.2.map (·.1)).Nodup) :
    (((l.foldl auditScanStep st).2).map (·.1)).Nodup := by
  induction l generalizing st with
  | nil => exact h
  | cons uid rest ih =>
    rw [List.foldl_cons]
    apply ih
    simp only [auditScanStep]
    by_cases hm : uid ∈ st.1
    · rw [if_pos hm]
      exact nodup_dictBump uid st.2 h
    · rw [if_neg hm]
      exact h

theorem mem_iff_dictFind_of_nodup (d : List (String × α))
    (h : (d.map (·.1)).Nodup) (k : String) (v : α) :
    (k, v) ∈ d ↔ dictFind d k = some v := by
  constructor
  · intro hm
    induction d with
    | nil => simp at hm
    | cons e rest ih =>
      obtain ⟨ek, ev⟩ := e
      simp only [List.map_cons, List.nodup_cons] at h
      simp only [dictFind]
      rcases List.mem_cons.mp hm with heq | hm'
      · injection heq with h1 h2
        subst h1; subst h2
        rw [if_pos rfl]
      · have hk : ek ≠ k := by
          intro hc
          subst hc
          exact h.1 (List.mem_map.mpr ⟨(ek, v), hm', rfl⟩)
        rw [if_neg hk]
        exact ih h.2 hm'
  · exact mem_of_dictFind d k v

theorem audit_uncovered_def (units : List SoftwareUnit) (pkgs : List WorkPackage) :
    (audit units pkgs).uncovered_units =
      insertionSortB strLe ((dedupList (units.map (·.id))).filter
        (fun i => decide (i ∉ ((pkgs.flatMap (·.software_unit_ids)).foldl
          auditScanStep ([], [])).1))) := rfl

theorem audit_dup_def (units : List SoftwareUnit) (pkgs : List WorkPackage) :
    (audit units pkgs).duplicate_coverage =
      insertionSortB (fun a b => strLe a.1 b.1)
        ((((pkgs.flatMap (·.software_unit_ids)).foldl auditScanStep ([], [])).2).filter
          (fun e => decide (1 < e.2))) := rfl

theorem audit_covered_iff (pkgs : List WorkPackage) (x : String) :
    x ∈ ((pkgs.flatMap (·.software_unit_ids)).foldl auditScanStep ([], [])).1
      ↔ ∃ p ∈ pkgs, x ∈ p.software_unit_ids := by
  rw [auditScan_covered]
  simp only [List.mem_nil_iff, false_or]
  exact List.mem_flatMap

theorem audit_uncovered_iff (units : List SoftwareUnit) (pkgs : List WorkPackage)
    (uid : String) :
    uid ∈ (audit units pkgs).uncovered_units ↔
      (∃ u ∈ units, u.id = uid) ∧ ¬ ∃ p ∈ pkgs, uid ∈ p.software_unit_ids := by
  rw [audit_uncovered_def, mem_insertionSortB, List.mem_filter]
  rw [mem_dedupList]
  constructor
  · rintro ⟨h1, h2⟩
    refine ⟨?_, ?_⟩
    · rcases List.mem_map.mp h1 with ⟨u, hu, he⟩
      exact ⟨u, hu, he⟩
    · intro hcon
      rw [decide_eq_true_iff] at h2
      exact h2 ((audit_covered_iff pkgs uid).mpr hcon)
  · rintro ⟨⟨u, hu, he⟩, h2⟩
    refine ⟨List.mem_map.mpr ⟨u, hu, he⟩, ?_⟩
    rw [decide_eq_true_iff]
    intro hcon
    exact h2 ((audit_covered_iff pkgs uid).mp hcon)

theorem audit_covered_or_uncovered (units : List SoftwareUnit) (pkgs : List WorkPackage)
    (u : SoftwareUnit) (hu : u ∈ units) :
    (∃ p ∈ pkgs, u.id ∈ p.software_unit_ids)
      ∨ u.id ∈ (audit units pkgs).uncovered_units := by
  by_cases h : ∃ p ∈ pkgs, u.id ∈ p.software_unit_ids
  · exact Or.inl h
  · exact Or.inr ((audit_uncovered_iff units pkgs u.id).mpr ⟨⟨u, hu, rfl⟩, h⟩)

theorem audit_uncovered_nil (units : List SoftwareUnit) (pkgs : List WorkPackage)
    (h : ∀ u ∈ units, ∃ p ∈ pkgs, u.id ∈ p.software_unit_ids) :
    (audit units pkgs).uncovered_units = [] := by
  apply List.eq_nil_iff_forall_not_mem.mpr
  intro uid hcon
  rcases (audit_uncovered_iff units pkgs uid).mp hcon with ⟨⟨u, hu, he⟩, h2⟩
  exact h2 (he ▸ h u hu)

theorem audit_dup_iff (units : List SoftwareUnit) (pkgs : List WorkPackage)
    (uid : String) (n : Nat) :
    (uid, n) ∈ (audit units pkgs).duplicate_coverage ↔
      2 ≤ n ∧ (pkgs.flatMap (·.software_unit_ids)).count uid = n := by
  rw [audit_dup_def, mem_insertionSortB, List.mem_filter]
  have hnodup : ((((pkgs.flatMap (·.software_unit_ids)).foldl
      auditScanStep ([], [])).2).map (·.1)).Nodup :=
    auditScan_keysNodup _ _ (by simp)
  rw [mem_iff_dictFind_of_nodup _ hnodup]
  rw [auditScan_dups _ [] [] [] (by simp) (by intro k; simp [dictFind])]
  rw [List.nil_append]
  constructor
  · rintro ⟨h1, _⟩
    by_cases h2 : 2 ≤ (pkgs.flatMap (·.software_unit_ids)).count uid
    · rw [if_pos h2] at h1
      injection h1 with h1
      exact ⟨by omega, h1⟩
    · rw [if_neg h2] at h1
      exact absurd h1 (by simp)
  · rintro ⟨h1, h2⟩
    subst h2
    refine ⟨by rw [if_pos h1], by simpa using h1⟩

theorem nodup_uncovered (units : List SoftwareUnit) (pkgs : List WorkPackage) :
    (audit units pkgs).uncovered_units.Nodup := by
  rw [audit_uncovered_def]
  apply (List.Perm.nodup_iff (perm_insertionSortB _ _)).mpr
  exact (nodup_dedupList _).filter _

theorem nodup_dup_keys (units : List SoftwareUnit) (pkgs : List WorkPackage) :
    ((audit units pkgs).duplicate_coverage.map (·.1)).Nodup := by
  rw [audit_dup_def]
  apply (List.Perm.nodup_iff (List.Perm.map (fun e : String × Nat => e.1)
    (perm_insertionSortB _ _))).mpr
  apply List.Nodup.sublist (List.Sublist.map _ (List.filter_sublist _))
  exact auditScan_keysNodup _ _ (by simp)

theorem sorted_uncovered (units : List SoftwareUnit) (pkgs : List WorkPackage) :
    (audit units pkgs).uncovered_units.Pairwise (fun a b => strLe a b = true) := by
  rw [audit_uncovered_def]
  exact pairwise_insertionSortB strLe strLe_total (fun a b c => strLe_trans) _

theorem sorted_dup (units : List SoftwareUnit) (pkgs : List WorkPackage) :
    (audit units pkgs).duplicate_coverage.Pairwise (fun a b => strLe a.1 b.1 = true) := by
  rw [audit_dup_def]
  exact pairwise_insertionSortB (fun a b : String × Nat => strLe a.1 b.1)
    (fun a b => strLe_total a.1 b.1) (fun a b c => strLe_trans) _

theorem dedupeUnitsAux_keys (seen : List String) (l : List SoftwareUnit) :
    ((dedupeUnitsAux seen l).map dedupeKey).Nodup
    ∧ ∀ k ∈ (dedupeUnitsAux seen l).map dedupeKey, k ∉ seen := by
  induction l generalizing seen with
  | nil => exact ⟨List.nodup_nil, by simp [dedupeUnitsAux]⟩
  | cons u us ih =>
    simp only [dedupeUnitsAux]
    by_cases h : dedupeKey u ∈ seen
    · rw [if_pos h]
      exact ih seen
    · rw [if_neg h]
      rcases ih (seen ++ [dedupeKey u]) with ⟨hnd, hnin⟩
      refine ⟨?_, ?_⟩
      · simp only [List.map_cons, List.nodup_cons]
        refine ⟨?_, hnd⟩
        intro hcon
        exact hnin _ hcon (List.mem_append_right _ (List.mem_singleton.mpr rfl))
      · intro k hk
        simp only [List.map_cons, List.mem_cons] at hk
        rcases hk with rfl | hk
        · exact h
        · intro hcon
          exact hnin k hk (List.mem_append_left _ hcon)

/-- Claim C2 (corrected, counterexample): two components named `X` in
contexts `a` and `b` have distinct dedup triples but identical ids, so the
extractor returns two units both with id `COMP::X` — the returned ids are
not pairwise distinct. -/
theorem C2_duplicate_ids_cex :
    (extract archC2).map (·.id) = ["COMP::X", "COMP::X"]
    ∧ ¬ ((extract archC2).map (·.id)).Nodup := by
  refine ⟨rfl, by decide⟩

/-- Claim C2 (amended): the unit collection returned by the extractor has
pairwise-distinct dedup keys `{type}::{name}::{context}` — deduplication is
by the `(type, name, context)` triple, not by `id`. -/
theorem C2_extract_nodup_triples (arch : ArchitectureAnalysis) :
    ((extract arch).map dedupeKey).Nodup :=
  (dedupeUnitsAux_keys [] _).1

/-- Claim C8 (corrected, counterexample): with a single package binding the
unit id `COMP::A` twice, the audit reports `duplicate_coverage =
[(COMP::A, 2)]` although `COMP::A` is bound by exactly one package (the
claim's reading would require an empty sequence). -/
theorem C8_duplicate_coverage_cex :
    (audit [uA] [pAA]).duplicate_coverage = [("COMP::A", 2)]
    ∧ ([pAA].filter (fun p => decide ("COMP::A" ∈ p.software_unit_ids))).length = 1
    ∧ (audit [uA] [pAA]).duplicate_coverage ≠ [] := by
  exact ⟨rfl, rfl, by decide⟩

/-- Claim C8 (amended): `duplicate_coverage` is exactly the sequence, ordered
strictly by unit id, of pairs `(uid, n)` where `uid` occurs `n ≥ 2` times in
total across all packages' `software_unit_ids` (occurrences counted with
multiplicity, whether or not `uid` names a unit); `uncovered_units` is
exactly the strictly lexically ordered sequence of distinct unit ids that
occur in no package. -/
theorem C8_audit_characterization (units : List SoftwareUnit) (pkgs : List WorkPackage) :
    (∀ uid n, (uid, n) ∈ (audit units pkgs).duplicate_coverage ↔
      2 ≤ n ∧ (pkgs.flatMap (·.software_unit_ids)).count uid = n)
    ∧ (audit units pkgs).duplicate_coverage.Pairwise
        (fun a b => strLe a.1 b.1 = true ∧ a.1 ≠ b.1)
    ∧ (∀ uid, uid ∈ (audit units pkgs).uncovered_units ↔
        (∃ u ∈ units, u.id = uid) ∧ uid ∉ pkgs.flatMap (·.software_unit_ids))
    ∧ (audit units pkgs).uncovered_units.Pairwise
        (fun a b => strLe a b = true ∧ a ≠ b) := by
  refine ⟨audit_dup_iff units pkgs, ?_, ?_, ?_⟩
  · apply List.Pairwise.and (sorted_dup units pkgs)
    have h := nodup_dup_keys units pkgs
    exact (List.pairwise_map.mp h)
  · intro uid
    rw [audit_uncovered_iff]
    constructor
    · rintro ⟨h1, h2⟩
      refine ⟨h1, fun hcon => h2 (List.mem_flatMap.mp hcon)⟩
    · rintro ⟨h1, h2⟩
      exact ⟨h1, fun hcon => h2 (List.mem_flatMap.mpr hcon)⟩
  · exact List.Pairwise.and (sorted_uncovered units pkgs) (nodup_uncovered units pkgs)

/-- Witness for the amended C8 at a concrete input: `(COMP::A, 2)` is in the
duplicate list iff `COMP::A` occurs twice, which it does. -/
theorem C8_audit_characterization_witness :
    ("COMP::A", 2) ∈ (audit [uA] [pAA]).duplicate_coverage ↔
      2 ≤ 2 ∧ ([pAA].flatMap (·.software_unit_ids)).count "COMP::A" = 2 :=
  (C8_audit_characterization [uA] [pAA]).1 "COMP::A" 2

/-- Claim C4: after the matcher, every bound unit id names an existing unit
whose `{context}/{type}` key is a literal prefix of the package name. -/
theorem C4_matcher_coherence (units : List SoftwareUnit) (pkgs : List WorkPackage) :
    ∀ p ∈ (matchUnits units pkgs).work_packages, ∀ uid ∈ p.software_unit_ids,
      ∃ u ∈ units, u.id = uid
        ∧ strStartsWith p.name (u.context ++ "/" ++ u.type) = true := by
  intro p hp uid huid
  rw [matchUnits_pkgs_def] at hp
  exact foldRepair_coherent units _ (unitIndex units)
    ⟨pkgs.map (step1Pkg (unitIndex units)), []⟩
    (fun e he => unitIndex_entries units e he)
    (step1_coherent units pkgs) p hp uid huid

/-- Witness for C4 at a concrete input. -/
theorem C4_matcher_coherence_witness :
    ∃ u ∈ [uA], u.id = "COMP::A"
      ∧ strStartsWith wpA.name (u.context ++ "/" ++ u.type) = true :=
  C4_matcher_coherence [uA] [wpA] wpA (by decide) "COMP::A" (by decide)

/-- Claim C5: the matcher's repair step leaves every unit id either bound in
some package or listed in `unbound_units`; an id lands in `unbound_units`
only when no package name is coherent with its unit; and the code's
sort-then-take-head choice equals the specification's first-minimum choice
(`matchUnitsSpec`). -/
theorem C5_matcher_repair (units : List SoftwareUnit) (pkgs : List WorkPackage) :
    matchUnits units pkgs = matchUnitsSpec units pkgs
    ∧ (∀ u ∈ units,
        (∃ p ∈ (matchUnits units pkgs).work_packages, u.id ∈ p.software_unit_ids)
        ∨ u.id ∈ (matchUnits units pkgs).unbound_units)
    ∧ (∀ uid ∈ (matchUnits units pkgs).unbound_units,
        ∃ u ∈ units, u.id = uid
          ∧ ∀ p ∈ pkgs, strStartsWith p.name (u.context ++ "/" ++ u.type) = false) := by
  refine ⟨matchUnits_eq_spec units pkgs, ?_, ?_⟩
  · intro u hu
    rcases unitIndex_find_complete units u hu with ⟨w, hw⟩
    have hentry : (u.id, w) ∈ unitIndex units := mem_of_dictFind _ _ _ hw
    have hInv : ∀ I ∈ (pkgs.map (step1Pkg (unitIndex units))).flatMap (·.software_unit_ids),
        ∃ p ∈ pkgs.map (step1Pkg (unitIndex units)), I ∈ p.software_unit_ids := by
      intro I hI
      exact List.mem_flatMap.mp hI
    have := foldRepair_covers _ (unitIndex units)
      ⟨pkgs.map (step1Pkg (unitIndex units)), []⟩ hInv (u.id, w) hentry
    rw [matchUnits_pkgs_def, matchUnits_unbound_def]
    exact this
  · intro uid huid
    rw [matchUnits_unbound_def] at huid
    exact foldRepair_unbound_char units pkgs _ (unitIndex units)
      ⟨pkgs.map (step1Pkg (unitIndex units)), []⟩
      (fun e he => unitIndex_entries units e he)
      (step1_names (unitIndex units) pkgs)
      (by intro uid' h'; simp at h') uid huid

/-- Witness for C5 at a concrete input: the single unit stays bound. -/
theorem C5_matcher_repair_witness :
    (∃ p ∈ (matchUnits [uA] [wpA]).work_packages, uA.id ∈ p.software_unit_ids)
    ∨ uA.id ∈ (matchUnits [uA] [wpA]).unbound_units :=
  (C5_matcher_repair [uA] [wpA]).2.1 uA (by decide)

theorem gate_covers (units : List SoftwareUnit) (pkgs : List WorkPackage) (t : String) :
    ∀ u ∈ units,
      ∃ p ∈ (if (audit units pkgs).uncovered_units.isEmpty then pkgs
        else pkgs ++ [remedialPkg t (audit units pkgs).uncovered_units]),
        u.id ∈ p.software_unit_ids := by
  intro u hu
  by_cases hempty : (audit units pkgs).uncovered_units.isEmpty
  · rw [if_pos hempty]
    rcases audit_covered_or_uncovered units pkgs u hu with h | h
    · exact h
    · rw [List.isEmpty_iff] at hempty
      rw [hempty] at h
      simp at h
  · rw [if_neg hempty]
    rcases audit_covered_or_uncovered units pkgs u hu with h | h
    · rcases h with ⟨p, hp, hid⟩
      exact ⟨p, List.mem_append_left _ hp, hid⟩
    · exact ⟨remedialPkg t _, List.mem_append_right _ (List.mem_singleton.mpr rfl), h⟩

/-- Claim C1: for a non-empty extracted unit collection, whenever the
pipeline returns a successful result, every unit id appears in at least one
work package of that result — a successful result never leaves a unit
uncovered (the other branch of the gate is the fatal failure). -/
theorem C1_coverage_totality (arch : ArchitectureAnalysis) (t : String)
    (_hne : extract arch ≠ []) (us : List SoftwareUnit) (ps : List WorkPackage)
    (cov : CoverageReport) (cp : ConcurrencyPlan)
    (hok : execute arch t = PipelineResult.ok us ps cov cp) :
    ∀ u ∈ us, ∃ p ∈ ps, u.id ∈ p.software_unit_ids := by
  simp only [execute] at hok
  split at hok
  · rename_i hempty
    split at hok
    · exact absurd hok (by simp)
    · injection hok with h1 h2 h3 h4
      subst h1
      subst h2
      intro u hu
      rcases audit_covered_or_uncovered (extract arch)
        (matchUnits (extract arch) (plan 3 (extract arch))).work_packages u hu with h | h
      · exact h
      · rw [List.isEmpty_iff] at hempty
        rw [hempty] at h
        simp at h
  · split at hok
    · exact absurd hok (by simp)
    · injection hok with h1 h2 h3 h4
      subst h1
      subst h2
      intro u hu
      rcases audit_covered_or_uncovered (extract arch)
        (matchUnits (extract arch) (plan 3 (extract arch))).work_packages u hu with h | h
      · rcases h with ⟨p, hp, hid⟩
        exact ⟨p, List.mem_append_left _ hp, hid⟩
      · exact ⟨remedialPkg t _, List.mem_append_right _ (List.mem_singleton.mpr rfl), h⟩

/-- Witness for C1 at a concrete successful run. -/
theorem C1_coverage_totality_witness :
    ∃ p ∈ [wpA], uA.id ∈ p.software_unit_ids := by
  have hok : execute archA "120000" =
      PipelineResult.ok [uA] [wpA] (audit [uA] [wpA]) (planBatches [wpA] [uA]) := by
    have hext : extract archA = [uA] := by rfl
    have hM : (matchUnits [uA] (plan 3 [uA])).work_packages = [wpA] := by rfl
    have hunc : (audit [uA] [wpA]).uncovered_units = [] := by rfl
    have hpct : ¬ (audit [uA] [wpA]).coverage_percentage < 100 := by
      have h1 : (audit [uA] [wpA]).coverage_percentage =
          ((1 : Nat) : ℚ) / ((1 : Nat) : ℚ) * 100 := rfl
      rw [h1]
      norm_num
    simp only [execute, hext, hM, hunc, List.isEmpty_nil, if_true]
    rw [if_neg hpct]
  exact C1_coverage_totality archA "120000" (by decide) [uA] [wpA]
    (audit [uA] [wpA]) (planBatches [wpA] [uA]) hok uA (by decide)

/-- Claim C9: the pipeline is deterministic — its observable outputs (unit
collection, work packages, coverage report, concurrency plan) do not depend
on the run, and in particular not on the wall-clock timestamp, because the
coverage gate's remedial branch is never taken: after planning and matching
every unit id is still bound. -/
theorem C9_determinism (arch : ArchitectureAnalysis) (t1 t2 : String) :
    execute arch t1 = execute arch t2 := by
  have hcov : ∀ uid uu, dictFind (unitIndex (extract arch)) uid = some uu →
      ∃ p ∈ plan 3 (extract arch), uid ∈ p.software_unit_ids ∧ isCoherent p uu = true := by
    intro uid uu hfind
    rcases unitIndex_find_sound _ uid uu hfind with ⟨huu, hid⟩
    rcases plan_covers 3 (extract arch) uu huu with ⟨p, hp, hmem, hcoh⟩
    exact ⟨p, hp, hid ▸ hmem, hcoh⟩
  have huncov : (audit (extract arch)
      (matchUnits (extract arch) (plan 3 (extract arch))).work_packages).uncovered_units
      = [] :=
    audit_uncovered_nil _ _ (match_keeps_covered _ _ hcov)
  simp only [execute, huncov, List.isEmpty_nil, if_true]

/-- Claim C10: on the empty unit collection the auditor reports
`coverage_percentage = 0` with no uncovered units, so no remedial package is
synthesized and the pipeline nevertheless fails the gate fatally. -/
theorem C10_empty_units_fatal (pkgs : List WorkPackage) (arch : ArchitectureAnalysis)
    (t : String) (h : extract arch = []) :
    (audit [] pkgs).coverage_percentage = 0
    ∧ (audit [] pkgs).uncovered_units = []
    ∧ execute arch t = PipelineResult.failed "覆盖度未达到100%，门禁阻断" := by
  refine ⟨rfl, rfl, ?_⟩
  simp only [execute, h]
  rfl

/-- Witness for C10 at the concrete empty architecture. -/
theorem C10_empty_units_fatal_witness :
    (audit [] []).coverage_percentage = 0
    ∧ (audit [] []).uncovered_units = []
    ∧ execute archEmpty "120000" = PipelineResult.failed "覆盖度未达到100%，门禁阻断" :=
  C10_empty_units_fatal [] archEmpty "120000" (by decide)

theorem acceptFold_invariant (pkgs : List WorkPackage)
    (acc : List WorkPackage) (locked : List String) (conf : List (String × List String))
    (hlock : ∀ p ∈ acc, ∀ r ∈ dbRes p, r ∈ locked)
    (hpair : acc.Pairwise (fun p q => ∀ r, r ∈ dbRes p → r ∈ dbRes q → False)) :
    (∀ p ∈ (pkgs.foldl acceptStep (acc, locked, conf)).1, ∀ r ∈ dbRes p,
        r ∈ (pkgs.foldl acceptStep (acc, locked, conf)).2.1)
    ∧ (pkgs.foldl acceptStep (acc, locked, conf)).1.Pairwise
        (fun p q => ∀ r, r ∈ dbRes p → r ∈ dbRes q → False) := by
  induction pkgs generalizing acc locked conf with
  | nil => exact ⟨hlock, hpair⟩
  | cons p ps ih =>
    rw [List.foldl_cons]
    by_cases hint : (locked.filter (fun r => decide (r ∈ dbRes p))).isEmpty
    · have hstep : acceptStep (acc, locked, conf) p =
          (acc ++ [p], locked ++ (dbRes p).filter (fun r => decide (r ∉ locked)), conf) := by
        simp only [acceptStep]
        rw [if_pos hint]
      rw [hstep]
      have hdisj : ∀ r ∈ locked, r ∈ dbRes p → False := by
        intro r hr hrp
        have hnil : locked.filter (fun r => decide (r ∈ dbRes p)) = [] := by
          cases hflt : locked.filter (fun r => decide (r ∈ dbRes p)) with
          | nil => rfl
          | cons x xs => rw [hflt] at hint; simp at hint
        have : r ∈ locked.filter (fun r => decide (r ∈ dbRes p)) :=
          List.mem_filter.mpr ⟨hr, by simpa using hrp⟩
        rw [hnil] at this
        simp at this
      apply ih
      · intro q hq r hr
        rcases List.mem_append.mp hq with hq' | hq'
        · exact List.mem_append_left _ (hlock q hq' r hr)
        · rcases List.mem_singleton.mp hq' with rfl
          by_cases hrl : r ∈ locked
          · exact List.mem_append_left _ hrl
          · exact List.mem_append_right _ (List.mem_filter.mpr ⟨hr, by simpa using hrl⟩)
      · apply List.pairwise_append.mpr
        refine ⟨hpair, List.pairwise_singleton _ _, ?_⟩
        intro q hq p' hp' r hrq hrp
        rcases List.mem_singleton.mp hp' with rfl
        exact hdisj r (hlock q hq r hrq) hrp
    · have hstep : acceptStep (acc, locked, conf) p =
          (acc, locked, conf ++ [(p.id, locked.filter (fun r => decide (r ∈ dbRes p)))]) := by
        simp only [acceptStep]
        rw [if_neg hint]
      rw [hstep]
      exact ih acc locked _ hlock hpair

theorem acceptFold_acc_mono (pkgs : List WorkPackage)
    (st : List WorkPackage × List String × List (String × List String)) :
    ∃ suffix, (pkgs.foldl acceptStep st).1 = st.1 ++ suffix := by
  induction pkgs generalizing st with
  | nil => exact ⟨[], by simp⟩
  | cons p ps ih =>
    rw [List.foldl_cons]
    by_cases hint : (st.2.1.filter (fun r => decide (r ∈ dbRes p))).isEmpty
    · have hstep : acceptStep st p =
          (st.1 ++ [p], st.2.1 ++ (dbRes p).filter (fun r => decide (r ∉ st.2.1)), st.2.2) := by
        simp only [acceptStep]
        rw [if_pos hint]
      rw [hstep]
      rcases ih (st.1 ++ [p], st.2.1 ++ (dbRes p).filter (fun r => decide (r ∉ st.2.1)), st.2.2)
        with ⟨suffix, hsuf⟩
      exact ⟨[p] ++ suffix, by rw [hsuf]; simp⟩
    · have hstep : acceptStep st p =
          (st.1, st.2.1, st.2.2 ++ [(p.id, st.2.1.filter (fun r => decide (r ∈ dbRes p)))]) := by
        simp only [acceptStep]
        rw [if_neg hint]
      rw [hstep]
      exact ih _

theorem acceptGroup_nonempty (pkgs : List WorkPackage) (h : pkgs ≠ []) :
    (acceptGroup pkgs).1 ≠ [] := by
  cases pkgs with
  | nil => exact absurd rfl h
  | cons p ps =>
    show ((p :: ps).foldl acceptStep ([], [], [])).1 ≠ []
    rw [List.foldl_cons]
    have hstep : acceptStep ([], [], []) p =
        ([p], ([] : List String) ++ (dbRes p).filter (fun r => decide (r ∉ ([] : List String))),
          ([] : List (String × List String))) := by
      simp only [acceptStep]
      rw [if_pos (by rfl)]
      rfl
    rw [hstep]
    rcases acceptFold_acc_mono ps _ with ⟨suffix, hsuf⟩
    rw [hsuf]
    simp

theorem groups_nonempty (wps : List WorkPackage) (units : List SoftwareUnit) :
    ∀ g ∈ contextGroups wps units, g.2 ≠ [] := by
  intro g hg
  exact foldl_bucketAdd_nonempty (fun p => inferContext p units) wps [] (by simp) g hg

/-- Claim C6: within any batch of the returned plan, no two packages share a
`DB::`-prefixed resource id: every batch is the id image of a list of
packages whose `DB::` resource sets are pairwise disjoint. -/
theorem C6_batch_db_disjoint (wps : List WorkPackage) (units : List SoftwareUnit)
    (b : List String) (hb : b ∈ (planBatches wps units).batches) :
    ∃ aps : List WorkPackage, b = aps.map (·.id)
      ∧ aps.Pairwise (fun p q => ∀ r, r ∈ dbRes p → r ∈ dbRes q → False) := by
  simp only [planBatches] at hb
  rcases List.mem_filter.mp hb with ⟨hb', _⟩
  rcases List.mem_map.mp hb' with ⟨r, hr, heq⟩
  rcases List.mem_map.mp hr with ⟨g, _, rfl⟩
  refine ⟨(acceptGroup (insertionSortB loadLe g.2)).1, heq.symm, ?_⟩
  exact (acceptFold_invariant _ [] [] [] (by simp) List.Pairwise.nil).2

/-- Witness for C6 at a concrete input. -/
theorem C6_batch_db_disjoint_witness :
    ∃ aps : List WorkPackage, ["WP-001"] = aps.map (·.id)
      ∧ aps.Pairwise (fun p q => ∀ r, r ∈ dbRes p → r ∈ dbRes q → False) :=
  C6_batch_db_disjoint [wpA] [uA] ["WP-001"] (by decide)

/-- Claim C7: each (necessarily non-empty) inferred-context group yields
exactly one batch — the accepted packages of that group, in order — and the
plan is exactly these per-group batches plus the aggregated conflicts. -/
theorem C7_one_batch_per_group (wps : List WorkPackage) (units : List SoftwareUnit) :
    (planBatches wps units).batches
      = (contextGroups wps units).map
          (fun g => (acceptGroup (insertionSortB loadLe g.2)).1.map (·.id))
    ∧ (∀ g ∈ contextGroups wps units,
        (acceptGroup (insertionSortB loadLe g.2)).1.map (·.id) ≠ [])
    ∧ (planBatches wps units).conflicts
      = (contextGroups wps units).flatMap
          (fun g => (acceptGroup (insertionSortB loadLe g.2)).2.2) := by
  have hne : ∀ g ∈ contextGroups wps units,
      (acceptGroup (insertionSortB loadLe g.2)).1.map (·.id) ≠ [] := by
    intro g hg
    have h1 : insertionSortB loadLe g.2 ≠ [] := by
      intro hcon
      exact groups_nonempty wps units g hg ((insertionSortB_nil_iff loadLe g.2).mp hcon)
    intro hcon
    exact acceptGroup_nonempty _ h1 (List.map_eq_nil_iff.mp hcon)
  refine ⟨?_, hne, ?_⟩
  · simp only [planBatches, List.map_map]
    apply List.filter_eq_self.mpr
    intro b hb
    rcases List.mem_map.mp hb with ⟨g, hg, rfl⟩
    have := hne g hg
    simp only [Function.comp]
    cases hcase : (acceptGroup (insertionSortB loadLe g.2)).1.map (·.id) with
    | nil => exact absurd hcase this
    | cons x xs => simp [hcase]
  · simp only [planBatches, List.flatMap_map]

/-- Witness for C7 at a concrete input. -/
theorem C7_one_batch_per_group_witness :
    (planBatches [wpA] [uA]).batches
      = (contextGroups [wpA] [uA]).map
          (fun g => (acceptGroup (insertionSortB loadLe g.2)).1.map (·.id)) :=
  (C7_one_batch_per_group [wpA] [uA]).1

theorem riskGeB_total (a b : SoftwareUnit) : riskGeB a b = true ∨ riskGeB b a = true :=
  strLe_total b.risk_level a.risk_level

theorem riskGeB_trans (a b c : SoftwareUnit) (h1 : riskGeB a b = true)
    (h2 : riskGeB b c = true) : riskGeB a c = true :=
  strLe_trans h2 h1

theorem plan_ids_eq (maxU : Nat) (units : List SoftwareUnit) :
    (plan maxU units).map (·.software_unit_ids)
      = (buckets units).flatMap
          (fun kv => (chunks maxU (insertionSortB riskGeB kv.2)).map
            (fun c => c.map (·.id))) := by
  show ((numbered 1 ((buckets units).flatMap
      (fun kv => (numbered 1 (chunks maxU (insertionSortB riskGeB kv.2))).map
        (fun jc => (kv.1, jc))))).map
      (fun nt => mkPackage nt.1 nt.2.1 nt.2.2.1 nt.2.2.2)).map (·.software_unit_ids) = _
  rw [List.map_map]
  have h1 := map_numbered 1 ((buckets units).flatMap
      (fun kv => (numbered 1 (chunks maxU (insertionSortB riskGeB kv.2))).map
        (fun jc => (kv.1, jc))))
      (fun t : String × Nat × List SoftwareUnit => t.2.2.map (·.id))
  refine Eq.trans h1 ?_
  rw [List.map_flatMap]
  congr 1
  funext kv
  rw [List.map_map]
  exact map_numbered 1 (chunks maxU (insertionSortB riskGeB kv.2))
    (fun c => c.map (·.id))

theorem plan_sizes (maxU : Nat) (units : List SoftwareUnit) (h : 1 ≤ maxU) :
    ∀ p ∈ plan maxU units, p.software_unit_ids.length ≤ maxU := by
  intro p hp
  rcases List.mem_map.mp hp with ⟨nt, hnt, rfl⟩
  have ht : nt.2 ∈ (buckets units).flatMap
      (fun kv => (numbered 1 (chunks maxU (insertionSortB riskGeB kv.2))).map
        (fun jc => (kv.1, jc))) := snd_mem_of_mem_numbered _ _ _ _ hnt
  rcases List.mem_flatMap.mp ht with ⟨kv, _, htag⟩
  rcases List.mem_map.mp htag with ⟨jc, hjc, heq⟩
  have hchunk : jc.2 ∈ chunks maxU (insertionSortB riskGeB kv.2) :=
    snd_mem_of_mem_numbered _ _ _ _ hjc
  have hlen : jc.2.length ≤ maxU := length_le_of_mem_chunks maxU _ h jc.2 hchunk
  have : nt.2.2.2 = jc.2 := by rw [← heq]
  show (nt.2.2.2.map (·.id)).length ≤ maxU
  rw [this, List.length_map]
  exact hlen

/-- Claim C3: the planner buckets by `context/type`, stably orders each
bucket descending by the **lexical** string order on `risk_level` (so
`"medium"` comes before both `"low"` and `"high"`), splits the ordered
bucket into contiguous chunks of size at most `max_units_per_package`
(assumed ≥ 1 — Python raises `ValueError` at 0), and turns each chunk into
one package, in order. -/
theorem C3_plan_ordering_chunking (maxU : Nat) (units : List SoftwareUnit)
    (h : 1 ≤ maxU) :
    (∀ p ∈ plan maxU units, p.software_unit_ids.length ≤ maxU)
    ∧ (plan maxU units).map (·.software_unit_ids)
        = (buckets units).flatMap
            (fun kv => (chunks maxU (insertionSortB riskGeB kv.2)).map
              (fun c => c.map (·.id)))
    ∧ (∀ kv ∈ buckets units,
        (insertionSortB riskGeB kv.2).Pairwise
          (fun a b => strLe b.risk_level a.risk_level = true)
        ∧ (insertionSortB riskGeB kv.2).Perm kv.2)
    ∧ strLe "low" "medium" = true ∧ strLe "high" "medium" = true := by
  refine ⟨plan_sizes maxU units h, plan_ids_eq maxU units, ?_, by decide, by decide⟩
  intro kv _
  exact ⟨pairwise_insertionSortB riskGeB riskGeB_total riskGeB_trans kv.2,
    perm_insertionSortB riskGeB kv.2⟩

/-- Witness for C3 at a concrete input. -/
theorem C3_plan_ordering_chunking_witness :
    1 ≤ 3 ∧ ∀ p ∈ plan 3 [uA], p.software_unit_ids.length ≤ 3 :=
  ⟨by decide, (C3_plan_ordering_chunking 3 [uA] (by decide)).1⟩

/-- Witness for the amended C2 at a concrete input. -/
theorem C2_extract_nodup_triples_witness :
    ((extract archA).map dedupeKey).Nodup :=
  C2_extract_nodup_triples archA

/-- Witness for C9 at a concrete input: two runs at different timestamps. -/
theorem C9_determinism_witness :
    execute archA "101010" = execute archA "235959" :=
  C9_determinism archA "101010" "235959"

end CodingFlow
